import Mathlib

/-!
# keep-alive, `Vue.use` and the event methods

A shallow embedding of three files of the repository and the properties
proved about them:

* `src/core/components/keep-alive.js`: the pattern matcher (`matches`), the
  cache store (`cache`, `keys`, `pruneCacheEntry`, `pruneCache`) and the
  lifecycle hooks (`created`, `render`, `cacheVNode`, the two watchers,
  `destroyed`);
* `src/core/global-api/use.js`: `Vue.use`;
* `src/core/instance/events.js`: `$on`, `$once`, `$off`, `$emit`.

Modelling conventions.

* A JavaScript object with a null prototype (`cache`, `_events`) is an
  association list in property-creation order; a slot holding `null` and a
  missing property both read as `none` (both are falsy in the source).
* `undefined` and `null` are `none`; an optional string is truthy when it is
  `some s` with `s` non-empty.
* `$destroy()` is an effect of the host: every call is recorded, in call
  order, in the field `destroyCalls` of the state. Calls to plugins and to
  user handlers are recorded in the same way.
* The field `componentInstance` of a vnode is the instance handle that the
  host has attached to it by the time the `mounted`/`updated` hook runs.
* Keys are strings, as the Flow annotations of the file declare.
* A number prop is a finite, integer-valued Number; `String` of it follows
  `Number::toString`, exponent form from `10 ^ 21` on.
* A regular expression is seen through a test that does not depend on
  earlier tests (no `g` or `y` flag).
* Helpers imported from files outside these three are either parameters
  (`getFirstComponentChild`) or modelled by what they do (`remove`,
  `isRegExp`, `toArray`, `invokeWithErrorHandling`).
-/

namespace Vue

/-! ## Data model -/

/-- Handle of a component instance (the host's `Component`). -/
abbrev Component := Nat

/-- Mirror of `type CacheEntry` (keep-alive.js, lines 6-10). -/
structure CacheEntry where
  name : Option String
  tag : Option String
  componentInstance : Component
  deriving DecidableEq, Repr

/-- Mirror of `type CacheEntryMap`: property name and slot, in creation order. -/
abbrev CacheEntryMap := List (String × Option CacheEntry)

/-- A compiled regular expression, seen through its `test` method. -/
structure RegExp where
  test : String → Bool

/-- The values a pattern prop (`include`, `exclude`) can hold: an array of
names, a string, a regular expression, or any other value, of which only the
truthiness is observed. -/
inductive Pattern where
  | array (items : List String)
  | string (s : String)
  | regExp (r : RegExp)
  | other (truthy : Bool)

/-- The values the prop `max: [String, Number]` can hold; a number is a
finite, integer-valued Number, given by its value. -/
inductive MaxProp where
  | number (n : Int)
  | string (s : String)
  deriving DecidableEq, Repr

/-- The `options` of a component constructor, as far as the file reads them. -/
structure CtorOptions where
  name : Option String
  deriving DecidableEq, Repr

/-- A component constructor: its `cid` and its `options`. -/
structure ComponentCtor where
  cid : Nat
  options : CtorOptions
  deriving DecidableEq, Repr

/-- The `VNodeComponentOptions` fields read by the file. -/
structure VNodeComponentOptions where
  Ctor : ComponentCtor
  tag : Option String
  deriving DecidableEq, Repr

/-- The `data` of a vnode, as far as the file writes it. -/
structure VNodeData where
  keepAlive : Bool
  deriving DecidableEq, Repr

/-- The `VNode` fields read or written by the file. -/
structure VNode where
  tag : Option String
  key : Option String
  componentOptions : Option VNodeComponentOptions
  componentInstance : Component
  data : VNodeData
  deriving DecidableEq, Repr

/-- The keep-alive instance: its props, the state set up by `created`, the
pending insertion staged by `render`, the host's `_vnode`, and the record of
the `$destroy()` calls made so far. -/
structure KeepAlive where
  include_ : Option Pattern
  exclude : Option Pattern
  max : Option MaxProp
  cache : CacheEntryMap
  keys : List String
  vnodeToCache : Option VNode
  keyToCache : Option String
  _vnode : Option VNode
  destroyCalls : List Component

/-! ## JavaScript primitives used by the file -/

/-- Truthiness of an optional string. -/
def truthyStr : Option String → Bool
  | some s => s ≠ ""
  | none => false

/-- Truthiness of a pattern prop. -/
def truthyPattern : Option Pattern → Bool
  | none => false
  | some (Pattern.array _) => true
  | some (Pattern.string s) => s ≠ ""
  | some (Pattern.regExp _) => true
  | some (Pattern.other t) => t

/-- The operator `a || b` on optional strings. -/
def jsOr (a b : Option String) : Option String :=
  if truthyStr a then a else b

/-- Array `indexOf` on strings: the first position of `x`, or `-1`. -/
def indexOf : List String → String → Int
  | [], _ => -1
  | y :: ys, x => if y = x then 0 else
      let i := indexOf ys x
      if i = -1 then -1 else i + 1

/-- Pieces of a character list between commas. -/
def splitCommaChars : List Char → List (List Char)
  | [] => [[]]
  | c :: cs =>
    match splitCommaChars cs with
    | [] => [[]]
    | seg :: segs => if c = ',' then [] :: seg :: segs else (c :: seg) :: segs

/-- The call `s.split(',')`. -/
def splitComma (s : String) : List String :=
  (splitCommaChars s.data).map String.mk

/-- Modelled from the spec: `remove` of `shared/util` is imported, not defined
in the file; it takes the key out of the sequence, at its first position and
only there, and leaves the array alone when the key is absent. -/
def remove : List String → String → List String
  | [], _ => []
  | y :: ys, x => if y = x then ys else y :: remove ys x

/-! ### Numbers and `parseInt` -/

/-- The decimal digit character of `d < 10`. -/
def digitChar : Nat → Char
  | 0 => '0'
  | 1 => '1'
  | 2 => '2'
  | 3 => '3'
  | 4 => '4'
  | 5 => '5'
  | 6 => '6'
  | 7 => '7'
  | 8 => '8'
  | _ => '9'

/-- Decimal digits of `n`, least significant first; `fuel` bounds the count. -/
def digitsLE : Nat → Nat → List Nat
  | 0, _ => []
  | fuel + 1, n => if n < 10 then [n] else (n % 10) :: digitsLE fuel (n / 10)

/-- The string `String(n)` of a natural number: its decimal numeral. -/
def decimal (n : Nat) : String :=
  String.mk ((digitsLE (n + 1) n).reverse.map digitChar)

/-- Number of binary digits of `v`; `fuel` bounds the count. -/
def bitLength : Nat → Nat → Nat
  | 0, _ => 0
  | fuel + 1, v => if v = 0 then 0 else bitLength fuel (v / 2) + 1

/-- The Number value for the integer `v`: `v` kept to 53 binary digits,
rounded to nearest, a tie to the even one. -/
def roundToDouble (v : Nat) : Nat :=
  let sh := bitLength v v - 53
  let q := v / 2 ^ sh
  let r := v % 2 ^ sh
  let up := decide (2 ^ sh < 2 * r) || (decide (2 * r = 2 ^ sh) && decide (q % 2 = 1))
  (if up then q + 1 else q) * 2 ^ sh

/-- The integer with the fewest significant decimal digits whose Number value
is `x`, sought among the multiples of `10 ^ p` next to `x`, from the given
exponent downwards; of two such multiples the closer one, and the even one on
a tie (the digits `s` of `Number::toString`). -/
def shortestFrom (x : Nat) : Nat → Nat
  | 0 => x
  | p + 1 =>
    let unit := 10 ^ (p + 1)
    let lo := x / unit * unit
    let hi := lo + unit
    let okLo := decide (0 < lo) && decide (roundToDouble lo = x)
    let okHi := decide (roundToDouble hi = x)
    if okLo && okHi then
      (if x - lo < hi - x then lo
       else if hi - x < x - lo then hi
       else if (lo / unit) % 2 = 0 then lo else hi)
    else if okLo then lo
    else if okHi then hi
    else shortestFrom x p

/-- The exponent form of `Number::toString` for the integer `c`: the first
significant digit, the other significant digits after a point when there are
any, then `e+` and the decimal exponent. -/
def exponentForm (c : Nat) : List Char :=
  let ds := (digitsLE (c + 1) c).reverse
  match (ds.reverse.dropWhile (fun d => decide (d = 0))).reverse with
  | [] => ['0']
  | d :: rest =>
    digitChar d :: ((if rest.isEmpty then [] else '.' :: rest.map digitChar) ++
      ('e' :: '+' :: (decimal (ds.length - 1)).data))

/-- The string `String(n)` of a non-negative integer-valued Number: the
decimal numeral below `10 ^ 21`, the exponent form of the shortest digits from
`10 ^ 21` on (`String(1e21)` is `"1e+21"`). Below `10 ^ 21` every digit is
printed; from `2 ^ 53` on `String` prints zeros past the shortest digits, a
numeral that `parseInt` reads back to the same Number. -/
def numberToString (n : Nat) : String :=
  if n < 10 ^ 21 then decimal n
  else
    let x := roundToDouble n
    String.mk (exponentForm (shortestFrom x (digitsLE (x + 1) x).length))

/-- The string `String(n)` of an integer-valued Number. -/
def intToString : Int → String
  | Int.ofNat n => numberToString n
  | Int.negSucc n => String.mk ('-' :: (numberToString (n + 1)).data)

/-- The characters `parseInt` skips at the start (white space and line
terminators). -/
def isStrWhiteSpaceChar (c : Char) : Bool :=
  let n := c.toNat
  n = 0x9 || n = 0xA || n = 0xB || n = 0xC || n = 0xD || n = 0x20 || n = 0xA0 ||
  n = 0x1680 || (0x2000 ≤ n && n ≤ 0x200A) || n = 0x2028 || n = 0x2029 ||
  n = 0x202F || n = 0x205F || n = 0x3000 || n = 0xFEFF

/-- Value of a character as a digit of the given radix, if it is one. -/
def digitValue (radix : Nat) (c : Char) : Option Nat :=
  let n := c.toNat
  let v : Option Nat :=
    if 48 ≤ n && n ≤ 57 then some (n - 48)
    else if 97 ≤ n && n ≤ 122 then some (n - 87)
    else if 65 ≤ n && n ≤ 90 then some (n - 55)
    else none
  match v with
  | some d => if d < radix then some d else none
  | none => none

/-- Value of a digit string in the given radix (non-digits count as zero). -/
def digitsValue (radix : Nat) (cs : List Char) : Nat :=
  cs.foldl (fun acc c => acc * radix + (digitValue radix c).getD 0) 0

/-- The sign step of `parseInt`: the sign and the rest of the input. -/
def parseSign : List Char → Int × List Char
  | '-' :: rest => (-1, rest)
  | '+' :: rest => (1, rest)
  | cs => (1, cs)

/-- The prefix step of `parseInt` without a radix argument: `0x`/`0X` selects
radix 16, anything else radix 10. -/
def parseRadix : List Char → Nat × List Char
  | '0' :: 'x' :: rest => (16, rest)
  | '0' :: 'X' :: rest => (16, rest)
  | cs => (10, cs)

/-- The call `parseInt(s)` on a string; `none` is `NaN`. The value is the
exact integer the digits denote; the source compares it with an array length
only, which the rounding of a long numeral to a Number does not change. -/
def parseIntChars (cs : List Char) : Option Int :=
  let (sign, s1) := parseSign (cs.dropWhile isStrWhiteSpaceChar)
  let (radix, s2) := parseRadix s1
  let z := s2.takeWhile (fun c => (digitValue radix c).isSome)
  if z.isEmpty then none else some (sign * (digitsValue radix z : Int))

/-- The call `parseInt(this.max)`: the argument is converted to a string first. -/
def parseInt : MaxProp → Option Int
  | MaxProp.number n => parseIntChars (intToString n).data
  | MaxProp.string s => parseIntChars s.data

/-- Truthiness of `this.max`. -/
def truthyMax : Option MaxProp → Bool
  | none => false
  | some (MaxProp.number n) => n ≠ 0
  | some (MaxProp.string s) => s ≠ ""

/-- The test `this.max && keys.length > parseInt(this.max)`; a comparison with
`NaN` is false. -/
def exceedsMax (max : Option MaxProp) (len : Nat) : Bool :=
  match max with
  | none => false
  | some m =>
    truthyMax (some m) &&
      (match parseInt m with
       | some bound => decide (bound < (len : Int))
       | none => false)

/-! ### The cache object -/

/-- The read `cache[key]`; `none` for a missing property and for `null`. -/
def cacheGet : CacheEntryMap → String → Option CacheEntry
  | [], _ => none
  | (k, v) :: rest, key => if k = key then v else cacheGet rest key

/-- The write `cache[key] = v`: in place for an existing property, a new last
property otherwise. -/
def cacheSet : CacheEntryMap → String → Option CacheEntry → CacheEntryMap
  | [], key, v => [(key, v)]
  | (k, v0) :: rest, key, v =>
    if k = key then (k, v) :: rest else (k, v0) :: cacheSet rest key v

/-- The array index a property name denotes, if it is the canonical numeral
of an integer below `2^32 - 1`. -/
def arrayIndex (s : String) : Option Nat :=
  let cs := s.data
  if cs.isEmpty then none
  else if !cs.all (fun c => decide (48 ≤ c.toNat) && decide (c.toNat ≤ 57)) then none
  else if cs.head? = some '0' && cs.length ≠ 1 then none
  else
    let n := digitsValue 10 cs
    if n < 4294967295 then some n else none

/-- Insertion of an indexed name into a list sorted by index. -/
def insertIndexed (x : Nat × String) : List (Nat × String) → List (Nat × String)
  | [] => [x]
  | y :: ys => if x.1 < y.1 then x :: y :: ys else y :: insertIndexed x ys

/-- Sorting of indexed names by ascending index. -/
def sortIndexed : List (Nat × String) → List (Nat × String)
  | [] => []
  | x :: xs => insertIndexed x (sortIndexed xs)

/-- The names visited by `for (const key in cache)`: array indices first, in
ascending numeric order, then the other names in creation order. -/
def forInKeys (cache : CacheEntryMap) : List String :=
  let names := cache.map Prod.fst
  (sortIndexed (names.filterMap (fun k => (arrayIndex k).map (fun n => (n, k))))).map Prod.snd
    ++ names.filter (fun k => (arrayIndex k).isNone)

/-! ## The functions of keep-alive.js -/

/-- The function `getComponentName` (lines 15-17). -/
def getComponentName (opts : Option VNodeComponentOptions) : Option String :=
  match opts with
  | none => none
  | some o => jsOr o.Ctor.options.name o.tag

/-- The function `matches` (lines 20-30). The pattern may be any value a prop
can hold, `none` being `undefined`; the imported `isRegExp` is the test for
the constructor `regExp`. -/
def «matches» (pattern : Option Pattern) (name : String) : Bool :=
  match pattern with
  | some (Pattern.array items) => decide (indexOf items name > -1)
  | some (Pattern.string s) => decide (indexOf (splitComma s) name > -1)
  | some (Pattern.regExp r) => r.test name
  | _ => false

/-- The `$destroy()` calls of one `pruneCacheEntry` (line 56-58): the instance
of the entry at `key`, unless there is no entry or `current` is given and
carries the entry's tag. -/
def destroyCallsOf (cache : CacheEntryMap) (key : String) (current : Option VNode) :
    List Component :=
  match cacheGet cache key with
  | none => []
  | some entry =>
    match current with
    | none => [entry.componentInstance]
    | some cur => if entry.tag ≠ cur.tag then [entry.componentInstance] else []

/-- The function `pruneCacheEntry` (lines 46-61), on the instance that owns
`cache` and `keys`. -/
def pruneCacheEntry (s : KeepAlive) (key : String) (current : Option VNode) : KeepAlive :=
  { s with
    destroyCalls := s.destroyCalls ++ destroyCallsOf s.cache key current
    cache := cacheSet s.cache key none
    keys := remove s.keys key }

/-- One turn of the loop of `pruneCache` (lines 35-41). -/
def pruneCacheStep (filter : String → Bool) (current : Option VNode)
    (s : KeepAlive) (key : String) : KeepAlive :=
  match cacheGet s.cache key with
  | none => s
  | some entry =>
    match entry.name with
    | none => s
    | some name =>
      if truthyStr (some name) && !filter name then pruneCacheEntry s key current else s

/-- The function `pruneCache` (lines 32-43). -/
def pruneCache (keepAliveInstance : KeepAlive) (filter : String → Bool) : KeepAlive :=
  (forInKeys keepAliveInstance.cache).foldl
    (pruneCacheStep filter keepAliveInstance._vnode) keepAliveInstance

/-- The method `cacheVNode` (lines 77-97). A pending vnode without a staged
key would use the property name `undefined`. -/
def cacheVNode (s : KeepAlive) : KeepAlive :=
  match s.vnodeToCache with
  | none => s
  | some vnodeToCache =>
    let keyToCache := s.keyToCache.getD "undefined"
    let s1 : KeepAlive :=
      { s with
        cache := cacheSet s.cache keyToCache (some
          { name := getComponentName vnodeToCache.componentOptions
            tag := vnodeToCache.tag
            componentInstance := vnodeToCache.componentInstance })
        keys := s.keys ++ [keyToCache] }
    let s2 : KeepAlive :=
      if exceedsMax s1.max s1.keys.length then
        match s1.keys.head? with
        | some oldest => pruneCacheEntry s1 oldest s1._vnode
        | none => s1
      else s1
    { s2 with vnodeToCache := none }

/-- The hook `created` (lines 100-103), on an instance with the given props. -/
def created (include_ exclude : Option Pattern) (max : Option MaxProp) : KeepAlive :=
  { include_ := include_
    exclude := exclude
    max := max
    cache := []
    keys := []
    vnodeToCache := none
    keyToCache := none
    _vnode := none
    destroyCalls := [] }

/-- The hook `destroyed` (lines 106-110). -/
def destroyed (s : KeepAlive) : KeepAlive :=
  (forInKeys s.cache).foldl (fun st key => pruneCacheEntry st key none) s

/-- The callback of the watcher on `include` (lines 115-117). -/
def includeWatcher (s : KeepAlive) (val : Option Pattern) : KeepAlive :=
  pruneCache s (fun name => «matches» val name)

/-- The callback of the watcher on `exclude` (lines 118-120). -/
def excludeWatcher (s : KeepAlive) (val : Option Pattern) : KeepAlive :=
  pruneCache s (fun name => !«matches» val name)

/-- The test of lines 137-142: the candidate is not included, or is excluded. -/
def filteredOut (s : KeepAlive) (name : Option String) : Bool :=
  (truthyPattern s.include_ &&
      (!truthyStr name || !«matches» s.include_ (name.getD ""))) ||
    (truthyPattern s.exclude && truthyStr name && «matches» s.exclude (name.getD ""))

/-- The key of lines 148-152: the vnode's own key, or else the constructor id
followed by `::` and the tag when there is a (non-empty) tag. -/
def resolveKey (vnode : VNode) (componentOptions : VNodeComponentOptions) : String :=
  match vnode.key with
  | none =>
    decimal componentOptions.Ctor.cid ++
      (if truthyStr componentOptions.tag then "::" ++ componentOptions.tag.getD "" else "")
  | some key => key

/-- Lines 146-168 of `render`: look the key up, reuse and refresh on a hit,
stage on a miss, and mark the vnode. The staged vnode is the returned object,
so it carries the mark as well. -/
def renderCacheable (s : KeepAlive) (vnode : VNode)
    (componentOptions : VNodeComponentOptions) : KeepAlive × VNode :=
  let key := resolveKey vnode componentOptions
  match cacheGet s.cache key with
  | some entry =>
    ({ s with keys := remove s.keys key ++ [key] },
     { vnode with
       componentInstance := entry.componentInstance
       data := { vnode.data with keepAlive := true } })
  | none =>
    let marked : VNode := { vnode with data := { vnode.data with keepAlive := true } }
    ({ s with vnodeToCache := some marked, keyToCache := some key }, marked)

/-- The function `render` (lines 128-170). The imported helper
`getFirstComponentChild` is a parameter; the result is the new state and the
returned vnode. -/
def render (s : KeepAlive) (slot : Option (List VNode))
    (getFirstComponentChild : Option (List VNode) → Option VNode) :
    KeepAlive × Option VNode :=
  match getFirstComponentChild slot with
  | none => (s, slot.bind List.head?)
  | some vnode =>
    match vnode.componentOptions with
    | none => (s, some vnode)
    | some componentOptions =>
      let name := getComponentName (some componentOptions)
      if filteredOut s name then (s, some vnode)
      else
        let r := renderCacheable s vnode componentOptions
        (r.1, some r.2)

/-! ## Runs of the component -/

/-- What can happen to a keep-alive instance: a render pass, a `mounted` or
`updated` hook (both call `cacheVNode`), a watcher callback, teardown, and the
host writing a prop or `_vnode`. -/
inductive Op where
  | render (slot : Option (List VNode))
      (getFirstComponentChild : Option (List VNode) → Option VNode)
  | cacheVNode
  | includeWatcher (val : Option Pattern)
  | excludeWatcher (val : Option Pattern)
  | destroyed
  | setInclude (val : Option Pattern)
  | setExclude (val : Option Pattern)
  | setMax (val : Option MaxProp)
  | setVnode (val : Option VNode)

/-- The state after one operation. -/
def step (s : KeepAlive) : Op → KeepAlive
  | Op.render slot g => (render s slot g).1
  | Op.cacheVNode => cacheVNode s
  | Op.includeWatcher val => includeWatcher s val
  | Op.excludeWatcher val => excludeWatcher s val
  | Op.destroyed => destroyed s
  | Op.setInclude val => { s with include_ := val }
  | Op.setExclude val => { s with exclude := val }
  | Op.setMax val => { s with max := val }
  | Op.setVnode val => { s with _vnode := val }

/-- The state after a sequence of operations. -/
def run (s : KeepAlive) (ops : List Op) : KeepAlive :=
  ops.foldl step s

/-- A state the component can be in: some run from a freshly created instance
ends in it. -/
def Reachable (s : KeepAlive) : Prop :=
  ∃ inc exc max ops, s = run (created inc exc max) ops

/-- The key-set invariant of the store: `keys` has no duplicates and holds
exactly the keys whose cache slot is an entry. -/
def KeySetInvariant (s : KeepAlive) : Prop :=
  s.keys.Nodup ∧ ∀ k, k ∈ s.keys ↔ (cacheGet s.cache k).isSome = true

/-- A pending insertion has a key, and that key has no entry yet. -/
def PendingFresh (s : KeepAlive) : Prop :=
  ∀ v, s.vnodeToCache = some v → ∃ k, s.keyToCache = some k ∧ cacheGet s.cache k = none

/-- The invariant carried along a run: the key-set invariant together with the
freshness of the pending key. -/
def Inv (s : KeepAlive) : Prop := KeySetInvariant s ∧ PendingFresh s

/-- The state of `cacheVNode` after lines 83-89: the entry is written and the
key pushed. -/
def committed (s : KeepAlive) (v : VNode) (k : String) : KeepAlive :=
  { s with
    cache := cacheSet s.cache k (some
      { name := getComponentName v.componentOptions
        tag := v.tag
        componentInstance := v.componentInstance })
    keys := s.keys ++ [k] }

/-- The test of line 38 on an entry: it has a (non-empty) name and the filter
rejects that name. -/
def rejectedBy (filter : String → Bool) (e : CacheEntry) : Bool :=
  match e.name with
  | none => false
  | some name => truthyStr (some name) && !filter name

/-- What a sweep leaves in a slot it visits. -/
def sweepSlot (filter : String → Bool) : Option CacheEntry → Option CacheEntry
  | none => none
  | some e => if rejectedBy filter e then none else some e

/-- The test of line 56 on an entry: there is no current vnode, or the tags
differ. -/
def notExempt (current : Option VNode) (e : CacheEntry) : Bool :=
  match current with
  | none => true
  | some cur => decide (e.tag ≠ cur.tag)

/-- Value of a list of decimal digits, least significant first. -/
def ofDigitsLE : List Nat → Nat
  | [] => 0
  | d :: ds => d + 10 * ofDigitsLE ds

/-- An operation that writes the prop `max`. -/
def Op.changesMax : Op → Bool
  | Op.setMax _ => true
  | _ => false

/-- The size bound: `max` is `m` and `keys` has at most `N` elements. -/
def Bounded (N : Nat) (m : MaxProp) (s : KeepAlive) : Prop :=
  s.max = some m ∧ s.keys.length ≤ N

/-- The prop `max` holds the positive integer `N`, as a number or as its
decimal string. -/
def IsMaxOf (N : Nat) (m : MaxProp) : Prop :=
  m = MaxProp.number (N : Int) ∨ m = MaxProp.string (decimal N)

/-- The entry `cacheVNode` builds from a staged vnode (lines 83-87). -/
def entryOf (v : VNode) : CacheEntry :=
  { name := getComponentName v.componentOptions
    tag := v.tag
    componentInstance := v.componentInstance }

/-! ### Sample data for the closed statements -/

/-- Component vnode with the given tag, key, constructor id, name and instance. -/
def sampleVNode (tag key : String) (cid : Nat) (name : String) (inst : Component) : VNode :=
  { tag := some tag
    key := some key
    componentOptions := some { Ctor := { cid := cid, options := { name := some name } }, tag := some tag }
    componentInstance := inst
    data := { keepAlive := false } }

/-- Candidate `A`, tag `x`. -/
def sampleA : VNode := sampleVNode "x" "A" 1 "foo" 10

/-- Candidate `B`, tag `y`. -/
def sampleB : VNode := sampleVNode "y" "B" 2 "bar" 11

/-- Candidate `C`, tag `z`. -/
def sampleC : VNode := sampleVNode "z" "C" 3 "baz" 12

/-- One host cycle for a candidate: render it, install it as `_vnode`, commit. -/
def cycle (v : VNode) : List Op :=
  [Op.render (some [v]) (fun _ => some v), Op.setVnode (some v), Op.cacheVNode]

/-- Scenario 1 up to the third render: `max = 2`, `A` and `B` committed, `C`
rendered and installed, not yet committed. -/
def scenario1 : KeepAlive :=
  run (created none none (some (MaxProp.number 2)))
    (cycle sampleA ++ cycle sampleB ++
      [Op.render (some [sampleC]) (fun _ => some sampleC), Op.setVnode (some sampleC)])

/-- Modelled from the spec: the host's update around `render` (its lifecycle
code is not among the sources). One render pass is followed by exactly one
mount or update notification, which triggers the commit; in between the host
installs the vnode that `render` returned as `_vnode`. -/
def hostUpdate (s : KeepAlive) (slot : Option (List VNode))
    (getFirstComponentChild : Option (List VNode) → Option VNode) : KeepAlive :=
  let r := render s slot getFirstComponentChild
  cacheVNode { r.1 with _vnode := r.2 }

/-- Scenario 1 after the second commit: `max = 2`, `A` (tag `x`) and `B`
(tag `y`) committed. -/
def twoCachedMax2 : KeepAlive :=
  run (created none none (some (MaxProp.number 2))) (cycle sampleA ++ cycle sampleB)

/-- Candidate `C` of scenario 2: as `C`, with the tag `x` of `A`. -/
def sampleCx : VNode := sampleVNode "x" "C" 3 "baz" 12

/-- A keep-alive with `max` the number `1e21`, `A` committed and `B` rendered
and installed, not yet committed. -/
def hugeMax : KeepAlive :=
  run (created none none (some (MaxProp.number 1000000000000000000000)))
    (cycle sampleA ++
      [Op.render (some [sampleB]) (fun _ => some sampleB), Op.setVnode (some sampleB)])

/-- Two committed entries, `A` (name `foo`, tag `x`) and `B` (name `bar`, tag
`y`); `B` is the currently rendered vnode. -/
def twoCached : KeepAlive :=
  run (created none none none) (cycle sampleA ++ cycle sampleB)

/-- A candidate without a name: no declared name and no tag in its options. -/
def sampleU : VNode :=
  { tag := some "vue-component-4"
    key := some "U"
    componentOptions := some { Ctor := { cid := 4, options := { name := none } }, tag := none }
    componentInstance := 13
    data := { keepAlive := false } }

/-- A store holding the unnamed entry `U` and the entry `A` (name `foo`). -/
def unnamedCached : KeepAlive :=
  run (created none none none) (cycle sampleU ++ cycle sampleA)

/-- The spec's `matches(pattern, name)` on a candidate name: a candidate
lacking a (non-empty) name matches no pattern. -/
def specMatches (pattern : Option Pattern) (name : Option String) : Bool :=
  truthyStr name && «matches» pattern (name.getD "")

/-- The filter decision in the spec's words: `(include absent OR
matches(include, name)) AND NOT (exclude present AND matches(exclude, name))`. -/
def specCacheable (include_ exclude : Option Pattern) (name : Option String) : Bool :=
  (include_.isNone || specMatches include_ name) &&
    !(exclude.isSome && specMatches exclude name)

/-- The filter decision with `include absent` widened to `include falsy`
(absent, the empty string, or another falsy value). -/
def falsyIncludeCacheable (include_ exclude : Option Pattern) (name : Option String) : Bool :=
  (!truthyPattern include_ || specMatches include_ name) &&
    !(exclude.isSome && specMatches exclude name)

/-- A keep-alive created with `include = ""`. -/
def emptyInclude : KeepAlive :=
  created (some (Pattern.string "")) none none

/-- The test of line 38 on a slot: it holds an entry that the filter rejects. -/
def isRejected (filter : String → Bool) : Option CacheEntry → Bool
  | none => false
  | some e => rejectedBy filter e

/-- Scenario 3: a keep-alive created with `include = "foo,bar"`. -/
def includeFooBar : KeepAlive :=
  created (some (Pattern.string "foo,bar")) none none

/-- The regular expression `/^Foo/`, through its test. -/
def startsWithFoo : RegExp :=
  { test := fun name => name.data.take 3 == ['F', 'o', 'o'] }

/-- Scenario 4: a keep-alive created with `exclude = /^Foo/`. -/
def excludeFoo : KeepAlive :=
  created none (some (Pattern.regExp startsWithFoo)) none

/-- Candidate named `Foo1`. -/
def sampleFoo1 : VNode := sampleVNode "w" "F" 5 "Foo1" 14

/-- The tag that enters a derived key: none for a missing or empty tag. -/
def effectiveTag (co : VNodeComponentOptions) : Option String :=
  if truthyStr co.tag then co.tag else none

/-- Scenario 1 before the third commit, with the unparseable `max = "abc"`. -/
def unparseableMax : KeepAlive :=
  { scenario1 with max := some (MaxProp.string "abc") }

/-- The characters a derived key carries after the constructor id. -/
def keySuffixChars (co : VNodeComponentOptions) : List Char :=
  match effectiveTag co with
  | some t => ':' :: ':' :: t.data
  | none => []

/-- The instance an operation commits: that of the pending vnode, when the
operation is `cacheVNode` and finds one. -/
def commitOf (s : KeepAlive) : Op → List Component
  | Op.cacheVNode =>
    (match s.vnodeToCache with
     | some v => [v.componentInstance]
     | none => [])
  | _ => []

/-- The instances committed along a run, in order: one for every `cacheVNode`
that finds a pending vnode. -/
def commitsOf : KeepAlive → List Op → List Component
  | _, [] => []
  | s, op :: rest => commitOf s op ++ commitsOf (step s op) rest

/-- The disposal invariant relative to the instances `C` committed so far: no
instance was disposed twice, live entries carry committed, undisposed and
pairwise distinct instances, and only committed instances were disposed. -/
def DisposalInv (C : List Component) (s : KeepAlive) : Prop :=
  s.destroyCalls.Nodup ∧
  (∀ k e, cacheGet s.cache k = some e →
    e.componentInstance ∈ C ∧ e.componentInstance ∉ s.destroyCalls) ∧
  (∀ k1 k2 e1 e2, cacheGet s.cache k1 = some e1 → cacheGet s.cache k2 = some e2 →
    e1.componentInstance = e2.componentInstance → k1 = k2) ∧
  (∀ x ∈ s.destroyCalls, x ∈ C)

/-! ## `Vue.use` of `src/core/global-api/use.js` -/

/-- A plugin passed to `Vue.use`: the identity of the object or function, and
the two `typeof` tests the function makes on it. -/
structure Plugin where
  id : Nat
  installIsFunction : Bool
  isFunction : Bool
  deriving DecidableEq, Repr

/-- An argument handed to a plugin: the receiver of `use`, or an extra
argument of the call. -/
inductive PluginArg where
  | receiver
  | extra (value : Nat)
  deriving DecidableEq, Repr

/-- A call made by `Vue.use`: `plugin.install.apply(plugin, args)` or
`plugin.apply(null, args)`. -/
inductive PluginCall where
  | install (plugin : Plugin) (args : List PluginArg)
  | apply (plugin : Plugin) (args : List PluginArg)
  deriving DecidableEq, Repr

/-- The plugin a call is made on. -/
def PluginCall.plugin : PluginCall → Plugin
  | PluginCall.install p _ => p
  | PluginCall.apply p _ => p

/-- The receiver of `use` (`Vue` or a subclass): its `_installedPlugins`,
`none` while the property is undefined, and the record of the calls made to
plugins so far. -/
structure GlobalAPI where
  _installedPlugins : Option (List Plugin)
  pluginCalls : List PluginCall

/-- Array `indexOf` on plugins (strict equality is identity of the value). -/
def pluginIndexOf : List Plugin → Plugin → Int
  | [], _ => -1
  | y :: ys, x => if y = x then 0 else
      let i := pluginIndexOf ys x
      if i = -1 then -1 else i + 1

/-- The function `Vue.use` (use.js, lines 6-29); the result is the receiver
after the call, which is also the value returned. -/
def use (receiver : GlobalAPI) (plugin : Plugin) (extraArgs : List Nat) : GlobalAPI :=
  let installedPlugins := receiver._installedPlugins.getD []
  if pluginIndexOf installedPlugins plugin > -1 then
    { receiver with _installedPlugins := some installedPlugins }
  else
    let args := PluginArg.receiver :: extraArgs.map PluginArg.extra
    let calls :=
      if plugin.installIsFunction then [PluginCall.install plugin args]
      else if plugin.isFunction then [PluginCall.apply plugin args]
      else []
    { _installedPlugins := some (installedPlugins ++ [plugin])
      pluginCalls := receiver.pluginCalls ++ calls }

/-- The receiver before any `use`: `_installedPlugins` is undefined. -/
def freshGlobalAPI : GlobalAPI :=
  { _installedPlugins := none, pluginCalls := [] }

/-- The installed-plugins list as `use` reads it. -/
def installedPlugins (receiver : GlobalAPI) : List Plugin :=
  receiver._installedPlugins.getD []

/-- The receiver after a sequence of `use` calls. -/
def useAll (receiver : GlobalAPI) (uses : List (Plugin × List Nat)) : GlobalAPI :=
  uses.foldl (fun r u => use r u.1 u.2) receiver

/-- The plugins of a sequence in first-use order: the head, then the first
uses of the rest without it. -/
def firstUses : List Plugin → List Plugin
  | [] => []
  | p :: ps => p :: (firstUses ps).filter (fun q => decide (q ≠ p))

/-- A plugin on which `use` makes a call: it has an `install` function or is
a function. -/
def Plugin.invocable (p : Plugin) : Bool :=
  p.installIsFunction || p.isFunction

/-! ## The event methods of `src/core/instance/events.js` -/

/-- What the body of a user handler can do to the instance: emit an event. -/
inductive Action where
  | emit (event : String) (args : List Nat)
  deriving DecidableEq, Repr

/-- A function registered as a handler: a user function, with its identity
and its body, or the closure `on` that `$once` creates, with its identity, the
event it was created for and its property `fn`. -/
inductive Fn where
  | user (id : Nat) (body : List Action)
  | onceWrapper (id : Nat) (event : String) (fn : Fn)
  deriving DecidableEq, Repr

/-- The `_events` object: event name and slot, in creation order; a slot can
hold `null`. -/
abbrev EventsMap := List (String × Option (List Fn))

/-- The instance as the event methods see it: `_events`, `_hasHookEvent`, the
identity of the next closure `$once` will create, and the record of the
invocations of user functions, with their arguments. -/
structure EventsVM where
  _events : EventsMap
  _hasHookEvent : Bool
  nextFn : Nat
  invoked : List (Nat × List Nat)
  deriving DecidableEq, Repr

/-- The argument `event` of `$on` and `$off`: a name or an array of names. -/
inductive EventArg where
  | one (event : String)
  | many (events : List String)
  deriving DecidableEq, Repr

/-- The arguments of a `$off` call: none at all, or an event and possibly a
handler. -/
inductive OffArgs where
  | noArgs
  | event (event : EventArg) (fn : Option Fn)
  deriving DecidableEq, Repr

/-- The read `vm._events[event]`; `none` for a missing property and for `null`. -/
def eventsGet : EventsMap → String → Option (List Fn)
  | [], _ => none
  | (k, v) :: rest, event => if k = event then v else eventsGet rest event

/-- The write `vm._events[event] = v`. -/
def eventsSet : EventsMap → String → Option (List Fn) → EventsMap
  | [], event, v => [(event, v)]
  | (k, v0) :: rest, event, v =>
    if k = event then (k, v) :: rest else (k, v0) :: eventsSet rest event v

/-- The function `initEvents` (lines 12-20) for an instance without parent
listeners. -/
def initEvents : EventsVM :=
  { _events := [], _hasHookEvent := false, nextFn := 0, invoked := [] }

/-- The test `hookRE.test(event)` with `hookRE = /^hook:/`. -/
def hookRE (event : String) : Bool :=
  event.data.take 5 == ['h', 'o', 'o', 'k', ':']

/-- The non-array branch of `$on` (lines 63-68). -/
def onOne (vm : EventsVM) (event : String) (fn : Fn) : EventsVM :=
  let cbs := (eventsGet vm._events event).getD []
  { vm with
    _events := eventsSet vm._events event (some (cbs ++ [fn]))
    _hasHookEvent := if hookRE event then true else vm._hasHookEvent }

/-- The method `$on` (lines 54-71). -/
def «$on» (vm : EventsVM) (event : EventArg) (fn : Fn) : EventsVM :=
  match event with
  | EventArg.one e => onOne vm e fn
  | EventArg.many es => es.foldl (fun vm e => onOne vm e fn) vm

/-- The method `$once` (lines 73-82): the closure `on` gets a new identity. -/
def «$once» (vm : EventsVM) (event : String) (fn : Fn) : EventsVM :=
  «$on» { vm with nextFn := vm.nextFn + 1 } (EventArg.one event)
    (Fn.onceWrapper vm.nextFn event fn)

/-- The test `cb === fn || cb.fn === fn` of line 115. -/
def handlerMatches (cb fn : Fn) : Bool :=
  decide (cb = fn) ||
    (match cb with
     | Fn.onceWrapper _ _ f => decide (f = fn)
     | Fn.user _ _ => false)

/-- Removal of the first handler of a list that matches `fn`. -/
def removeFirstMatch (fn : Fn) : List Fn → List Fn
  | [] => []
  | cb :: rest => if handlerMatches cb fn then rest else cb :: removeFirstMatch fn rest

/-- The loop of lines 111-119: going down from the last index, the first
handler that matches is spliced out. -/
def spliceLastMatch (cbs : List Fn) (fn : Fn) : List Fn :=
  (removeFirstMatch fn cbs.reverse).reverse

/-- The non-array branch of `$off` with arguments (lines 101-120). -/
def offOne (vm : EventsVM) (event : String) (fn : Option Fn) : EventsVM :=
  match eventsGet vm._events event with
  | none => vm
  | some cbs =>
    match fn with
    | none => { vm with _events := eventsSet vm._events event none }
    | some f => { vm with _events := eventsSet vm._events event (some (spliceLastMatch cbs f)) }

/-- The method `$off` (lines 84-121); the result is the instance after the
call, which is also the value returned. -/
def «$off» (vm : EventsVM) (args : OffArgs) : EventsVM :=
  match args with
  | OffArgs.noArgs => { vm with _events := [] }
  | OffArgs.event (EventArg.many es) fn => es.foldl (fun vm e => offOne vm e fn) vm
  | OffArgs.event (EventArg.one e) fn => offOne vm e fn

/-- A pending step of an emit: the invocation of a handler with arguments, or
an action of a running user function. -/
inductive Task where
  | invoke (handler : Fn) (args : List Nat)
  | act (action : Action)
  deriving DecidableEq, Repr

/-- The invocations an `$emit` schedules (lines 138-150): the handlers of the
event as they are when the emit starts (`toArray` copies a list of two or
more, and a shorter list is read before any handler runs), each with the
emit's arguments. The development-mode tip of lines 125-136 changes nothing. -/
def emitTasks (vm : EventsVM) (event : String) (args : List Nat) : List Task :=
  match eventsGet vm._events event with
  | none => []
  | some cbs => cbs.map (fun cb => Task.invoke cb args)

/-- Execution of pending steps, depth first as the call stack runs them: a
user function is recorded and its body runs; the closure `on` of `$once` calls
`vm.$off(event, on)` and then its `fn` (lines 75-78); an emit schedules its
invocations ahead of what is pending. The imported `invokeWithErrorHandling`
calls the handler and keeps its errors from the loop. `none` when the fuel
runs out. -/
def exec : Nat → EventsVM → List Task → Option EventsVM
  | _, vm, [] => some vm
  | 0, _, _ :: _ => none
  | fuel + 1, vm, Task.invoke (Fn.user id body) args :: rest =>
    exec fuel { vm with invoked := vm.invoked ++ [(id, args)] }
      (body.map Task.act ++ rest)
  | fuel + 1, vm, Task.invoke (Fn.onceWrapper id event fn) args :: rest =>
    exec fuel
      («$off» vm (OffArgs.event (EventArg.one event) (some (Fn.onceWrapper id event fn))))
      (Task.invoke fn args :: rest)
  | fuel + 1, vm, Task.act (Action.emit event args) :: rest =>
    exec fuel vm (emitTasks vm event args ++ rest)

/-- The method `$emit` (lines 123-153), run with the given fuel. -/
def «$emit» (fuel : Nat) (vm : EventsVM) (event : String) (args : List Nat) :
    Option EventsVM :=
  exec fuel vm [Task.act (Action.emit event args)]

/-- A user handler that emits `e` again, with the argument 2. -/
def reEmitter : Fn := Fn.user 1 [Action.emit "e" [2]]

/-- A user handler that does nothing to the instance. -/
def plainHandler : Fn := Fn.user 2 []

/-- An instance on which `$once("e", reEmitter)` and then
`$once("e", plainHandler)` were called. -/
def onceTwice : EventsVM :=
  «$once» («$once» initEvents "e" reEmitter) "e" plainHandler

/-! ## Lemmas on the primitives -/

theorem remove_eq_erase (l : List String) (x : String) : remove l x = l.erase x := by
  induction l with
  | nil => rfl
  | cons y ys ih =>
    by_cases h : y = x
    · subst h; simp [remove]
    · simp [remove, h, ih, List.erase_cons_tail]

theorem cacheGet_cacheSet_self (c : CacheEntryMap) (k : String) (v : Option CacheEntry) :
    cacheGet (cacheSet c k v) k = v := by
  induction c with
  | nil => simp [cacheSet, cacheGet]
  | cons p rest ih =>
    obtain ⟨k0, v0⟩ := p
    by_cases h : k0 = k
    · simp [cacheSet, cacheGet, h]
    · simp [cacheSet, cacheGet, h, ih]

theorem cacheGet_cacheSet_ne (c : CacheEntryMap) (k k' : String) (v : Option CacheEntry)
    (hne : k' ≠ k) : cacheGet (cacheSet c k v) k' = cacheGet c k' := by
  induction c with
  | nil =>
    have : k ≠ k' := fun h => hne h.symm
    simp [cacheSet, cacheGet, this]
  | cons p rest ih =>
    obtain ⟨k0, v0⟩ := p
    by_cases h : k0 = k
    · subst h
      have : k0 ≠ k' := fun h => hne h.symm
      simp [cacheSet, cacheGet, this]
    · by_cases h2 : k0 = k'
      · subst h2
        simp [cacheSet, cacheGet, h]
      · simp [cacheSet, cacheGet, h, h2, ih]

theorem foldl_preserves {α : Type} (P : KeepAlive → Prop) (f : KeepAlive → α → KeepAlive)
    (hf : ∀ s a, P s → P (f s a)) (l : List α) (s : KeepAlive) (hs : P s) :
    P (l.foldl f s) := by
  induction l generalizing s with
  | nil => exact hs
  | cons a as ih => exact ih (f s a) (hf s a hs)

/-! ### `parseInt` reads a decimal numeral back -/

theorem digitsLE_lt (fuel n : Nat) : ∀ d ∈ digitsLE fuel n, d < 10 := by
  induction fuel generalizing n with
  | zero => intro d hd; simp [digitsLE] at hd
  | succ f ih =>
    intro d hd
    unfold digitsLE at hd
    split at hd
    · simp at hd; omega
    · rcases List.mem_cons.1 hd with h | h
      · omega
      · exact ih _ d h

theorem digitsLE_ne_nil (fuel n : Nat) : digitsLE (fuel + 1) n ≠ [] := by
  unfold digitsLE
  split <;> simp

theorem ofDigitsLE_digitsLE (fuel n : Nat) (h : n < 10 ^ fuel) :
    ofDigitsLE (digitsLE fuel n) = n := by
  induction fuel generalizing n with
  | zero => simp at h; subst h; simp [digitsLE, ofDigitsLE]
  | succ f ih =>
    unfold digitsLE
    split
    · simp [ofDigitsLE]
    · have hlt : n / 10 < 10 ^ f := by
        rw [Nat.div_lt_iff_lt_mul (by norm_num)]
        rw [pow_succ] at h
        exact h
      simp only [ofDigitsLE, ih _ hlt]
      omega

theorem digitValue_digitChar (d : Nat) (h : d < 10) : digitValue 10 (digitChar d) = some d := by
  interval_cases d <;> decide

theorem digitChar_not_space (d : Nat) : isStrWhiteSpaceChar (digitChar d) = false := by
  unfold digitChar
  split <;> decide

theorem parseSign_digitChar (d : Nat) (cs : List Char) :
    parseSign (digitChar d :: cs) = (1, digitChar d :: cs) := by
  unfold digitChar
  split <;> rfl

theorem digitsValue_append (radix : Nat) (xs : List Char) (c : Char) :
    digitsValue radix (xs ++ [c]) = digitsValue radix xs * radix + (digitValue radix c).getD 0 := by
  simp [digitsValue, List.foldl_append]

theorem digitsValue_numeral (l : List Nat) (h : ∀ d ∈ l, d < 10) :
    digitsValue 10 (l.reverse.map digitChar) = ofDigitsLE l := by
  induction l with
  | nil => simp [digitsValue, ofDigitsLE]
  | cons d ds ih =>
    have hd : d < 10 := h d (List.mem_cons_self _ _)
    have hds : ∀ x ∈ ds, x < 10 := fun x hx => h x (List.mem_cons_of_mem _ hx)
    simp only [List.reverse_cons, List.map_append, List.map_cons, List.map_nil]
    rw [digitsValue_append, ih hds, digitValue_digitChar d hd]
    simp [ofDigitsLE]
    omega

theorem parseRadix_numeral (l : List Nat) :
    parseRadix (l.map digitChar) = (10, l.map digitChar) := by
  match l with
  | [] => rfl
  | [d] =>
    simp only [List.map_cons, List.map_nil]
    unfold digitChar
    split <;> rfl
  | d :: e :: r =>
    simp only [List.map_cons]
    generalize r.map digitChar = cs
    unfold digitChar
    split <;> split <;> rfl

theorem lt_ten_pow_succ (n : Nat) : n < 10 ^ (n + 1) := by
  induction n with
  | zero => norm_num
  | succ k ih => rw [pow_succ]; omega

theorem parseIntChars_decimal (n : Nat) : parseIntChars (decimal n).data = some (n : Int) := by
  have hlt := digitsLE_lt (n + 1) n
  have hval : digitsValue 10 ((digitsLE (n + 1) n).reverse.map digitChar) = n := by
    rw [digitsValue_numeral _ hlt, ofDigitsLE_digitsLE _ _ (lt_ten_pow_succ n)]
  have hne : (digitsLE (n + 1) n).reverse ≠ [] := by
    simpa using digitsLE_ne_nil n n
  have hlt2 : ∀ d ∈ (digitsLE (n + 1) n).reverse, d < 10 := fun d hd =>
    hlt d (List.mem_reverse.1 hd)
  revert hval hne hlt2
  unfold decimal
  generalize (digitsLE (n + 1) n).reverse = l
  intro hval hne hlt2
  have hradix := parseRadix_numeral l
  have htake : List.takeWhile (fun c => (digitValue 10 c).isSome) (l.map digitChar)
      = l.map digitChar := by
    rw [List.takeWhile_eq_self_iff]
    intro c hc
    obtain ⟨d, hd, rfl⟩ := List.mem_map.1 hc
    simp [digitValue_digitChar d (hlt2 d hd)]
  match l, hne with
  | d :: r, _ =>
    simp only [List.map_cons] at *
    simp [parseIntChars, List.dropWhile_cons, digitChar_not_space, parseSign_digitChar,
      hradix, htake, hval]

/-! ## Preservation of the invariant -/

theorem pruneCacheEntry_keySet (s : KeepAlive) (key : String) (current : Option VNode)
    (h : KeySetInvariant s) : KeySetInvariant (pruneCacheEntry s key current) := by
  obtain ⟨hnd, hmem⟩ := h
  refine ⟨?_, ?_⟩
  · simpa [pruneCacheEntry, remove_eq_erase] using hnd.erase key
  · intro k
    by_cases hk : k = key
    · subst hk
      simp [pruneCacheEntry, remove_eq_erase, cacheGet_cacheSet_self, hnd.mem_erase_iff]
    · simp [pruneCacheEntry, remove_eq_erase, cacheGet_cacheSet_ne _ _ _ _ hk,
        hnd.mem_erase_iff, hk, hmem k]

theorem pruneCacheEntry_pendingFresh (s : KeepAlive) (key : String) (current : Option VNode)
    (h : PendingFresh s) : PendingFresh (pruneCacheEntry s key current) := by
  intro v hv
  obtain ⟨k, hk, hget⟩ := h v (by simpa [pruneCacheEntry] using hv)
  refine ⟨k, by simpa [pruneCacheEntry] using hk, ?_⟩
  by_cases hkk : k = key
  · subst hkk; simp [pruneCacheEntry, cacheGet_cacheSet_self]
  · simpa [pruneCacheEntry, cacheGet_cacheSet_ne _ _ _ _ hkk] using hget

theorem keySet_congr (s t : KeepAlive) (hk : t.keys = s.keys) (hc : t.cache = s.cache)
    (h : KeySetInvariant s) : KeySetInvariant t := by
  unfold KeySetInvariant at *
  rw [hk, hc]
  exact h

theorem pruneCacheEntry_inv (current : Option VNode) (s : KeepAlive) (key : String)
    (h : Inv s) : Inv (pruneCacheEntry s key current) :=
  ⟨pruneCacheEntry_keySet s key current h.1, pruneCacheEntry_pendingFresh s key current h.2⟩

theorem pruneCacheStep_inv (filter : String → Bool) (current : Option VNode)
    (s : KeepAlive) (key : String) (h : Inv s) : Inv (pruneCacheStep filter current s key) := by
  unfold pruneCacheStep
  split
  · exact h
  · split
    · exact h
    · split
      · exact pruneCacheEntry_inv current s key h
      · exact h

theorem pruneCache_inv (s : KeepAlive) (filter : String → Bool) (h : Inv s) :
    Inv (pruneCache s filter) :=
  foldl_preserves Inv _ (pruneCacheStep_inv filter s._vnode) _ s h

theorem destroyed_inv (s : KeepAlive) (h : Inv s) : Inv (destroyed s) :=
  foldl_preserves Inv _ (fun st key hst => pruneCacheEntry_inv none st key hst) _ s h

theorem created_inv (inc exc : Option Pattern) (max : Option MaxProp) :
    Inv (created inc exc max) := by
  refine ⟨⟨?_, ?_⟩, ?_⟩
  · simp [created]
  · intro k; simp [created, cacheGet]
  · intro v hv; simp [created] at hv

theorem commit_keySet (s : KeepAlive) (k : String) (e : CacheEntry)
    (h : KeySetInvariant s) (hk : cacheGet s.cache k = none) :
    KeySetInvariant { s with cache := cacheSet s.cache k (some e), keys := s.keys ++ [k] } := by
  obtain ⟨hnd, hmem⟩ := h
  have hnot : k ∉ s.keys := by
    intro hin
    have := (hmem k).1 hin
    simp [hk] at this
  refine ⟨?_, ?_⟩
  · show (s.keys ++ [k]).Nodup
    rw [List.nodup_append]
    refine ⟨hnd, List.nodup_singleton k, ?_⟩
    intro a ha hb
    rw [List.mem_singleton] at hb
    exact hnot (hb ▸ ha)
  · intro x
    show x ∈ s.keys ++ [k] ↔ (cacheGet (cacheSet s.cache k (some e)) x).isSome = true
    by_cases hx : x = k
    · subst hx
      simp [cacheGet_cacheSet_self]
    · simp [cacheGet_cacheSet_ne _ _ _ _ hx, hx, hmem x]

theorem cacheVNode_none (s : KeepAlive) (h : s.vnodeToCache = none) : cacheVNode s = s := by
  simp [cacheVNode, h]

theorem cacheVNode_noEvict (s : KeepAlive) (v : VNode) (k : String)
    (hv : s.vnodeToCache = some v) (hk : s.keyToCache = some k)
    (hmax : exceedsMax s.max (s.keys.length + 1) = false) :
    cacheVNode s = { committed s v k with vnodeToCache := none } := by
  simp [cacheVNode, hv, hk, hmax, committed]

theorem cacheVNode_evict (s : KeepAlive) (v : VNode) (k : String)
    (hv : s.vnodeToCache = some v) (hk : s.keyToCache = some k)
    (hmax : exceedsMax s.max (s.keys.length + 1) = true) :
    cacheVNode s =
      { pruneCacheEntry (committed s v k) ((s.keys ++ [k]).headD k) s._vnode with
        vnodeToCache := none } := by
  cases hkeys : s.keys with
  | nil => simp [cacheVNode, hv, hk, hmax, committed, hkeys] at *; simp [hmax]
  | cons a as => simp [cacheVNode, hv, hk, committed, hkeys] at *; simp [hmax]

theorem cacheVNode_inv (s : KeepAlive) (h : Inv s) : Inv (cacheVNode s) := by
  cases hv : s.vnodeToCache with
  | none => rw [cacheVNode_none s hv]; exact h
  | some v =>
    obtain ⟨k, hk, hget⟩ := h.2 v hv
    have h1 : KeySetInvariant (committed s v k) := commit_keySet s k _ h.1 hget
    cases hmax : exceedsMax s.max (s.keys.length + 1) with
    | false =>
      rw [cacheVNode_noEvict s v k hv hk hmax]
      exact ⟨keySet_congr _ _ rfl rfl h1, fun w hw => by simp at hw⟩
    | true =>
      rw [cacheVNode_evict s v k hv hk hmax]
      exact ⟨keySet_congr _ _ rfl rfl
          (pruneCacheEntry_keySet (committed s v k) ((s.keys ++ [k]).headD k) s._vnode h1),
        fun w hw => by simp at hw⟩

theorem renderCacheable_hit (s : KeepAlive) (vnode : VNode) (co : VNodeComponentOptions)
    (entry : CacheEntry) (h : cacheGet s.cache (resolveKey vnode co) = some entry) :
    renderCacheable s vnode co =
      ({ s with keys := remove s.keys (resolveKey vnode co) ++ [resolveKey vnode co] },
       { vnode with
         componentInstance := entry.componentInstance
         data := { vnode.data with keepAlive := true } }) := by
  simp [renderCacheable, h]

theorem renderCacheable_miss (s : KeepAlive) (vnode : VNode) (co : VNodeComponentOptions)
    (h : cacheGet s.cache (resolveKey vnode co) = none) :
    renderCacheable s vnode co =
      ({ s with
         vnodeToCache := some { vnode with data := { vnode.data with keepAlive := true } }
         keyToCache := some (resolveKey vnode co) },
       { vnode with data := { vnode.data with keepAlive := true } }) := by
  simp [renderCacheable, h]

theorem render_candidate (s : KeepAlive) (slot : Option (List VNode))
    (g : Option (List VNode) → Option VNode) (vnode : VNode) (co : VNodeComponentOptions)
    (hg : g slot = some vnode) (hco : vnode.componentOptions = some co) :
    render s slot g =
      if filteredOut s (getComponentName (some co)) = true then (s, some vnode)
      else ((renderCacheable s vnode co).1, some (renderCacheable s vnode co).2) := by
  simp [render, hg, hco]

theorem renderCacheable_inv (s : KeepAlive) (vnode : VNode) (co : VNodeComponentOptions)
    (h : Inv s) : Inv (renderCacheable s vnode co).1 := by
  cases hget : cacheGet s.cache (resolveKey vnode co) with
  | none =>
    rw [renderCacheable_miss s vnode co hget]
    refine ⟨keySet_congr s _ rfl rfl h.1, ?_⟩
    intro v _
    exact ⟨resolveKey vnode co, rfl, hget⟩
  | some entry =>
    rw [renderCacheable_hit s vnode co entry hget]
    obtain ⟨hnd, hmem⟩ := h.1
    have hin : resolveKey vnode co ∈ s.keys := (hmem _).2 (by simp [hget])
    refine ⟨⟨?_, ?_⟩, ?_⟩
    · show (remove s.keys (resolveKey vnode co) ++ [resolveKey vnode co]).Nodup
      rw [remove_eq_erase, List.nodup_append]
      refine ⟨hnd.erase _, List.nodup_singleton _, ?_⟩
      intro a ha hb
      rw [List.mem_singleton] at hb
      subst hb
      exact (hnd.mem_erase_iff.1 ha).1 rfl
    · intro x
      show x ∈ remove s.keys (resolveKey vnode co) ++ [resolveKey vnode co] ↔
        (cacheGet s.cache x).isSome = true
      rw [remove_eq_erase, List.mem_append, hnd.mem_erase_iff, List.mem_singleton, ← hmem x]
      constructor
      · rintro (⟨_, hx⟩ | hx)
        · exact hx
        · exact hx ▸ hin
      · intro hx
        by_cases hxe : x = resolveKey vnode co
        · exact Or.inr hxe
        · exact Or.inl ⟨hxe, hx⟩
    · intro v hv
      exact h.2 v hv

theorem render_inv (s : KeepAlive) (slot : Option (List VNode))
    (g : Option (List VNode) → Option VNode) (h : Inv s) : Inv (render s slot g).1 := by
  cases hg : g slot with
  | none => simpa [render, hg] using h
  | some vnode =>
    cases hco : vnode.componentOptions with
    | none => simpa [render, hg, hco] using h
    | some co =>
      rw [render_candidate s slot g vnode co hg hco]
      split
      · exact h
      · exact renderCacheable_inv s vnode co h

theorem step_inv (s : KeepAlive) (op : Op) (h : Inv s) : Inv (step s op) := by
  cases op with
  | render slot g => exact render_inv s slot g h
  | cacheVNode => exact cacheVNode_inv s h
  | includeWatcher val => exact pruneCache_inv s _ h
  | excludeWatcher val => exact pruneCache_inv s _ h
  | destroyed => exact destroyed_inv s h
  | setInclude val => exact ⟨keySet_congr s _ rfl rfl h.1, fun v hv => h.2 v hv⟩
  | setExclude val => exact ⟨keySet_congr s _ rfl rfl h.1, fun v hv => h.2 v hv⟩
  | setMax val => exact ⟨keySet_congr s _ rfl rfl h.1, fun v hv => h.2 v hv⟩
  | setVnode val => exact ⟨keySet_congr s _ rfl rfl h.1, fun v hv => h.2 v hv⟩

theorem run_inv (s : KeepAlive) (ops : List Op) (h : Inv s) : Inv (run s ops) :=
  foldl_preserves Inv step step_inv ops s h

/-! ## Sweeps -/

theorem mem_insertIndexed (x y : Nat × String) (l : List (Nat × String)) :
    y ∈ insertIndexed x l ↔ y = x ∨ y ∈ l := by
  induction l with
  | nil => simp [insertIndexed]
  | cons z zs ih =>
    unfold insertIndexed
    split
    · simp
    · simp [ih]
      tauto

theorem mem_sortIndexed (y : Nat × String) (l : List (Nat × String)) :
    y ∈ sortIndexed l ↔ y ∈ l := by
  induction l with
  | nil => simp [sortIndexed]
  | cons z zs ih => simp [sortIndexed, mem_insertIndexed, ih]

theorem mem_forInKeys (c : CacheEntryMap) (k : String) :
    k ∈ forInKeys c ↔ k ∈ c.map Prod.fst := by
  unfold forInKeys
  simp only [List.mem_append, List.mem_map, List.mem_filter, mem_sortIndexed,
    List.mem_filterMap]
  constructor
  · rintro (⟨⟨n, k'⟩, ⟨a, ha, hn⟩, rfl⟩ | ⟨h, _⟩)
    · cases hidx : arrayIndex a with
      | none => simp [hidx] at hn
      | some i =>
        simp [hidx] at hn
        obtain ⟨-, rfl⟩ := hn
        exact ha
    · exact h
  · intro h
    cases hidx : arrayIndex k with
    | none => exact Or.inr ⟨h, by simp⟩
    | some i => exact Or.inl ⟨(i, k), ⟨k, h, by simp [hidx]⟩, rfl⟩

theorem mem_names_of_cacheGet (c : CacheEntryMap) (k : String) (e : CacheEntry)
    (h : cacheGet c k = some e) : k ∈ c.map Prod.fst := by
  induction c with
  | nil => simp [cacheGet] at h
  | cons p rest ih =>
    obtain ⟨k0, v0⟩ := p
    by_cases hk : k0 = k
    · simp [hk]
    · simp only [cacheGet, hk, if_false] at h
      simp [ih h]

theorem pruneCacheStep_eq (f : String → Bool) (cur : Option VNode) (st : KeepAlive)
    (a : String) :
    pruneCacheStep f cur st a =
      match cacheGet st.cache a with
      | none => st
      | some e => if rejectedBy f e = true then pruneCacheEntry st a cur else st := by
  unfold pruneCacheStep rejectedBy
  cases cacheGet st.cache a with
  | none => rfl
  | some e =>
    cases hn : e.name with
    | none => simp [hn]
    | some n => simp [hn]

theorem pruneCacheStep_cache (f : String → Bool) (cur : Option VNode) (st : KeepAlive)
    (a k : String) :
    cacheGet (pruneCacheStep f cur st a).cache k =
      if k = a then sweepSlot f (cacheGet st.cache k) else cacheGet st.cache k := by
  rw [pruneCacheStep_eq]
  by_cases hk : k = a
  · subst hk
    cases hget : cacheGet st.cache k with
    | none => simp [sweepSlot, hget]
    | some e =>
      by_cases hr : rejectedBy f e = true
      · simp [sweepSlot, hr, pruneCacheEntry, cacheGet_cacheSet_self]
      · simp [sweepSlot, hr, hget]
  · cases hget : cacheGet st.cache a with
    | none => simp [hk]
    | some e =>
      by_cases hr : rejectedBy f e = true
      · simp [hk, hr, pruneCacheEntry, cacheGet_cacheSet_ne _ _ _ _ hk]
      · simp [hk, hr]

theorem sweepSlot_idem (f : String → Bool) (o : Option CacheEntry) :
    sweepSlot f (sweepSlot f o) = sweepSlot f o := by
  cases o with
  | none => rfl
  | some e =>
    by_cases hr : rejectedBy f e = true
    · simp [sweepSlot, hr]
    · simp [sweepSlot, hr]

theorem foldl_pruneCacheStep_cache (f : String → Bool) (cur : Option VNode) (k : String)
    (l : List String) (st : KeepAlive) :
    cacheGet (l.foldl (pruneCacheStep f cur) st).cache k =
      if k ∈ l then sweepSlot f (cacheGet st.cache k) else cacheGet st.cache k := by
  induction l generalizing st with
  | nil => simp
  | cons a as ih =>
    rw [List.foldl_cons, ih, pruneCacheStep_cache]
    by_cases hka : k = a
    · by_cases hkl : k ∈ as
      · simp [hka, sweepSlot_idem] at *
      · simp [hka] at *
        simp [hkl]
    · simp [hka]

theorem pruneCache_cache (s : KeepAlive) (f : String → Bool) (k : String) :
    cacheGet (pruneCache s f).cache k = sweepSlot f (cacheGet s.cache k) := by
  unfold pruneCache
  rw [foldl_pruneCacheStep_cache]
  by_cases hk : k ∈ forInKeys s.cache
  · simp [hk]
  · have hnone : cacheGet s.cache k = none := by
      cases hget : cacheGet s.cache k with
      | none => rfl
      | some e =>
        exact absurd ((mem_forInKeys _ _).2 (mem_names_of_cacheGet _ _ _ hget)) hk
    simp [hk, hnone, sweepSlot]

theorem pruneCacheStep_calls (f : String → Bool) (cur : Option VNode) (st : KeepAlive)
    (a : String) :
    (pruneCacheStep f cur st a).destroyCalls = st.destroyCalls ++
      (match cacheGet st.cache a with
       | none => []
       | some e =>
         if rejectedBy f e = true ∧ notExempt cur e = true then [e.componentInstance] else []) := by
  rw [pruneCacheStep_eq]
  cases hget : cacheGet st.cache a with
  | none => simp
  | some e =>
    by_cases hr : rejectedBy f e = true
    · cases cur with
      | none => simp [hr, pruneCacheEntry, destroyCallsOf, hget, notExempt]
      | some c =>
        by_cases ht : e.tag = c.tag
        · simp [hr, pruneCacheEntry, destroyCallsOf, hget, notExempt, ht]
        · simp [hr, pruneCacheEntry, destroyCallsOf, hget, notExempt, ht]
    · simp [hr]

theorem foldl_pruneCacheStep_calls (f : String → Bool) (cur : Option VNode)
    (l : List String) (st : KeepAlive) :
    ∃ calls, (l.foldl (pruneCacheStep f cur) st).destroyCalls = st.destroyCalls ++ calls ∧
      ∀ x, x ∈ calls ↔ ∃ k ∈ l, ∃ e, cacheGet st.cache k = some e ∧
        rejectedBy f e = true ∧ notExempt cur e = true ∧ e.componentInstance = x := by
  induction l generalizing st with
  | nil => exact ⟨[], by simp, by simp⟩
  | cons a as ih =>
    obtain ⟨calls, hcalls, hmem⟩ := ih (pruneCacheStep f cur st a)
    rw [List.foldl_cons, hcalls, pruneCacheStep_calls, List.append_assoc]
    refine ⟨_, rfl, ?_⟩
    intro x
    rw [List.mem_append, hmem]
    constructor
    · rintro (hx | ⟨k, hk, e, hget, hr, hne, hx⟩)
      · cases hget : cacheGet st.cache a with
        | none => simp [hget] at hx
        | some e =>
          by_cases hc : rejectedBy f e = true ∧ notExempt cur e = true
          · simp [hget, hc] at hx
            exact ⟨a, List.mem_cons_self _ _, e, hget, hc.1, hc.2, hx.symm⟩
          · simp [hget, hc] at hx
      · rw [pruneCacheStep_cache] at hget
        refine ⟨k, List.mem_cons_of_mem _ hk, e, ?_, hr, hne, hx⟩
        by_cases hka : k = a
        · simp only [hka, if_true] at hget
          cases hg : cacheGet st.cache a with
          | none => simp [hg, sweepSlot] at hget
          | some e' =>
            by_cases hr' : rejectedBy f e' = true
            · simp [hg, sweepSlot, hr'] at hget
            · simp [hg, sweepSlot, hr'] at hget
              rw [hka, hg, hget]
        · simpa [hka] using hget
    · rintro ⟨k, hk, e, hget, hr, hne, hx⟩
      by_cases hka : k = a
      · left
        subst hka
        simp [hget, hr, hne, hx]
      · right
        rcases List.mem_cons.1 hk with h | h
        · exact absurd h hka
        · refine ⟨k, h, e, ?_, hr, hne, hx⟩
          rw [pruneCacheStep_cache]
          simpa [hka] using hget

theorem filter_ne_remove (l : List String) (k : String) :
    (remove l k).filter (fun x => decide (x ≠ k)) = l.filter (fun x => decide (x ≠ k)) := by
  induction l with
  | nil => rfl
  | cons y ys ih =>
    by_cases h : y = k
    · subst h; simp [remove]
    · simp only [remove, h, if_false, List.filter_cons, ih]

theorem isRejected_sweepSlot (f : String → Bool) (o : Option CacheEntry) :
    isRejected f (sweepSlot f o) = false := by
  cases o with
  | none => rfl
  | some e =>
    by_cases hr : rejectedBy f e = true
    · simp [sweepSlot, hr, isRejected]
    · simp [sweepSlot, hr, isRejected]

theorem pruneCacheStep_keys (f : String → Bool) (cur : Option VNode) (st : KeepAlive)
    (a : String) (hnd : st.keys.Nodup) :
    (pruneCacheStep f cur st a).keys =
      st.keys.filter (fun k => !(decide (k = a) && isRejected f (cacheGet st.cache k))) := by
  rw [pruneCacheStep_eq]
  cases hget : cacheGet st.cache a with
  | none =>
    symm
    rw [List.filter_eq_self]
    intro k _
    by_cases hk : k = a
    · subst hk; simp [hget, isRejected]
    · simp [hk]
  | some e =>
    by_cases hr : rejectedBy f e = true
    · simp only [hr, if_true]
      show remove st.keys a = _
      rw [remove_eq_erase, hnd.erase_eq_filter]
      apply List.filter_congr
      intro k _
      by_cases hk : k = a
      · subst hk; simp [hget, isRejected, hr]
      · simp [hk]
    · have hst : (if rejectedBy f e = true then pruneCacheEntry st a cur else st) = st := by
        simp [hr]
      simp only [hst]
      symm
      rw [List.filter_eq_self]
      intro k _
      by_cases hk : k = a
      · subst hk; simp [hget, isRejected, hr]
      · simp [hk]

theorem foldl_pruneCacheStep_keys (f : String → Bool) (cur : Option VNode)
    (l : List String) (st : KeepAlive) (hnd : st.keys.Nodup) :
    (l.foldl (pruneCacheStep f cur) st).keys =
      st.keys.filter (fun k => !(decide (k ∈ l) && isRejected f (cacheGet st.cache k))) := by
  induction l generalizing st with
  | nil => simp
  | cons a as ih =>
    have hnd' : (pruneCacheStep f cur st a).keys.Nodup := by
      rw [pruneCacheStep_keys f cur st a hnd]
      exact hnd.filter _
    rw [List.foldl_cons, ih _ hnd', pruneCacheStep_keys f cur st a hnd, List.filter_filter]
    apply List.filter_congr
    intro k _
    rw [pruneCacheStep_cache]
    by_cases hk : k = a
    · subst hk
      simp [isRejected_sweepSlot]
    · simp [hk]

theorem foldl_fixed {α : Type} (f : KeepAlive → α → KeepAlive) (l : List α) (s : KeepAlive)
    (h : ∀ a ∈ l, f s a = s) : l.foldl f s = s := by
  induction l with
  | nil => rfl
  | cons a as ih =>
    rw [List.foldl_cons, h a (List.mem_cons_self _ _)]
    exact ih (fun b hb => h b (List.mem_cons_of_mem _ hb))

/-! ## Teardown -/

theorem pruneCacheEntry_cache (st : KeepAlive) (a k : String) (cur : Option VNode) :
    cacheGet (pruneCacheEntry st a cur).cache k =
      if k = a then none else cacheGet st.cache k := by
  by_cases hk : k = a
  · subst hk; simp [pruneCacheEntry, cacheGet_cacheSet_self]
  · simp [pruneCacheEntry, cacheGet_cacheSet_ne _ _ _ _ hk, hk]

theorem foldl_teardown_cache (k : String) (l : List String) (st : KeepAlive) :
    cacheGet (l.foldl (fun st key => pruneCacheEntry st key none) st).cache k =
      if k ∈ l then none else cacheGet st.cache k := by
  induction l generalizing st with
  | nil => simp
  | cons a as ih =>
    rw [List.foldl_cons, ih, pruneCacheEntry_cache]
    by_cases hka : k = a
    · simp [hka]
    · simp [hka]

theorem foldl_teardown_keys (l : List String) (st : KeepAlive) (hnd : st.keys.Nodup) :
    (l.foldl (fun st key => pruneCacheEntry st key none) st).keys =
      st.keys.filter (fun k => decide (k ∉ l)) := by
  induction l generalizing st with
  | nil => simp
  | cons a as ih =>
    have hk : (pruneCacheEntry st a none).keys = st.keys.filter (fun k => decide (k ≠ a)) := by
      show remove st.keys a = _
      rw [remove_eq_erase, hnd.erase_eq_filter]
      apply List.filter_congr
      intro k _
      by_cases hka : k = a
      · simp [hka]
      · simp [hka]
    have hnd' : (pruneCacheEntry st a none).keys.Nodup := by
      rw [hk]; exact hnd.filter _
    rw [List.foldl_cons, ih _ hnd', hk, List.filter_filter]
    apply List.filter_congr
    intro k _
    by_cases hka : k = a
    · simp [hka]
    · simp [hka]

theorem pruneCacheEntry_none_calls (st : KeepAlive) (a : String) :
    (pruneCacheEntry st a none).destroyCalls = st.destroyCalls ++
      (match cacheGet st.cache a with
       | none => []
       | some e => [e.componentInstance]) := by
  cases hget : cacheGet st.cache a with
  | none => simp [pruneCacheEntry, destroyCallsOf, hget]
  | some e => simp [pruneCacheEntry, destroyCallsOf, hget]

theorem foldl_teardown_calls (l : List String) (st : KeepAlive) :
    ∃ calls, (l.foldl (fun st key => pruneCacheEntry st key none) st).destroyCalls =
        st.destroyCalls ++ calls ∧
      (∀ x, x ∈ calls ↔ ∃ k ∈ l, ∃ e, cacheGet st.cache k = some e ∧ e.componentInstance = x) ∧
      (∀ k e, k ∈ l → cacheGet st.cache k = some e →
        (∀ k' e', cacheGet st.cache k' = some e' →
          e'.componentInstance = e.componentInstance → k' = k) →
        List.count e.componentInstance calls = 1) := by
  induction l generalizing st with
  | nil => exact ⟨[], by simp, by simp, by simp⟩
  | cons a as ih =>
    obtain ⟨calls, hcalls, hmem, hcount⟩ := ih (pruneCacheEntry st a none)
    rw [List.foldl_cons, hcalls, pruneCacheEntry_none_calls, List.append_assoc]
    refine ⟨_, rfl, ?_, ?_⟩
    · intro x
      rw [List.mem_append, hmem]
      constructor
      · rintro (hx | ⟨k, hk, e, hget, hx⟩)
        · cases hget : cacheGet st.cache a with
          | none => simp [hget] at hx
          | some e =>
            simp [hget] at hx
            exact ⟨a, List.mem_cons_self _ _, e, hget, hx.symm⟩
        · rw [pruneCacheEntry_cache] at hget
          by_cases hka : k = a
          · simp [hka] at hget
          · simp only [hka, if_false] at hget
            exact ⟨k, List.mem_cons_of_mem _ hk, e, hget, hx⟩
      · rintro ⟨k, hk, e, hget, hx⟩
        by_cases hka : k = a
        · left
          subst hka
          simp [hget, hx]
        · right
          rcases List.mem_cons.1 hk with h | h
          · exact absurd h hka
          · refine ⟨k, h, e, ?_, hx⟩
            rw [pruneCacheEntry_cache]
            simpa [hka] using hget
    · intro k e hk hget huniq
      rw [List.count_append]
      by_cases hka : k = a
      · subst hka
        have hzero : List.count e.componentInstance calls = 0 := by
          rw [List.count_eq_zero]
          intro hin
          obtain ⟨k', -, e', hget', hx'⟩ := (hmem _).1 hin
          rw [pruneCacheEntry_cache] at hget'
          by_cases hk' : k' = k
          · simp [hk'] at hget'
          · simp only [hk', if_false] at hget'
            exact hk' (huniq k' e' hget' hx')
        simp [hget, hzero]
      · have hk2 : k ∈ as := by
          rcases List.mem_cons.1 hk with h | h
          · exact absurd h hka
          · exact h
        have hget2 : cacheGet (pruneCacheEntry st a none).cache k = some e := by
          rw [pruneCacheEntry_cache]; simpa [hka] using hget
        have huniq2 : ∀ k' e', cacheGet (pruneCacheEntry st a none).cache k' = some e' →
            e'.componentInstance = e.componentInstance → k' = k := by
          intro k' e' h' hx'
          rw [pruneCacheEntry_cache] at h'
          by_cases hk' : k' = a
          · simp [hk'] at h'
          · simp only [hk', if_false] at h'
            exact huniq k' e' h' hx'
        rw [hcount k e hk2 hget2 huniq2]
        cases hga : cacheGet st.cache a with
        | none => simp
        | some ea =>
          have hne : ea.componentInstance ≠ e.componentInstance := by
            intro h
            exact hka (huniq a ea hga h).symm
          simp [List.count_cons, hne]

/-! ## Derived keys -/

theorem decimal_isDigit (n : Nat) :
    ∀ c ∈ (decimal n).data, (digitValue 10 c).isSome = true := by
  intro c hc
  unfold decimal at hc
  obtain ⟨d, hd, rfl⟩ := List.mem_map.1 hc
  have hlt := digitsLE_lt (n + 1) n d (List.mem_reverse.1 hd)
  simp [digitValue_digitChar d hlt]

theorem decimal_injective (a b : Nat) (h : (decimal a).data = (decimal b).data) : a = b := by
  have ha := parseIntChars_decimal a
  have hb := parseIntChars_decimal b
  rw [h, hb] at ha
  exact_mod_cast (Option.some.inj ha).symm

theorem takeWhile_append_stop (p : Char → Bool) (l r : List Char)
    (hl : ∀ c ∈ l, p c = true) (hr : ∀ c, r.head? = some c → p c = false) :
    (l ++ r).takeWhile p = l := by
  induction l with
  | nil =>
    cases r with
    | nil => rfl
    | cons c cs => simp [List.takeWhile, hr c rfl]
  | cons x xs ih =>
    have hx := hl x (List.mem_cons_self _ _)
    have ih' := ih (fun c hc => hl c (List.mem_cons_of_mem _ hc))
    simp [List.takeWhile_cons, hx, ih']

theorem resolveKey_derived (v : VNode) (co : VNodeComponentOptions) (hv : v.key = none) :
    (resolveKey v co).data = (decimal co.Ctor.cid).data ++ keySuffixChars co := by
  unfold resolveKey keySuffixChars effectiveTag
  rw [hv]
  by_cases ht : truthyStr co.tag = true
  · cases htag : co.tag with
    | none => simp [htag, truthyStr] at ht
    | some t =>
      rw [htag] at ht
      simp [ht, String.data_append]
  · simp [ht, String.data_append]

theorem keySuffixChars_head (co : VNodeComponentOptions) :
    ∀ c, (keySuffixChars co).head? = some c → (digitValue 10 c).isSome = false := by
  intro c hc
  unfold keySuffixChars at hc
  cases he : effectiveTag co with
  | none => simp [he] at hc
  | some t =>
    simp [he] at hc
    subst hc
    decide

theorem keySuffixChars_injective (co1 co2 : VNodeComponentOptions)
    (h : keySuffixChars co1 = keySuffixChars co2) : effectiveTag co1 = effectiveTag co2 := by
  unfold keySuffixChars at h
  cases h1 : effectiveTag co1 with
  | none =>
    cases h2 : effectiveTag co2 with
    | none => rfl
    | some t2 => simp [h1, h2] at h
  | some t1 =>
    cases h2 : effectiveTag co2 with
    | none => simp [h1, h2] at h
    | some t2 =>
      simp [h1, h2] at h
      rw [String.ext h]

theorem resolveKey_eq_iff (v1 v2 : VNode) (co1 co2 : VNodeComponentOptions)
    (h1 : v1.key = none) (h2 : v2.key = none) :
    resolveKey v1 co1 = resolveKey v2 co2 ↔
      co1.Ctor.cid = co2.Ctor.cid ∧ effectiveTag co1 = effectiveTag co2 := by
  constructor
  · intro h
    have hd := congrArg String.data h
    rw [resolveKey_derived v1 co1 h1, resolveKey_derived v2 co2 h2] at hd
    have ht := congrArg (List.takeWhile (fun c => (digitValue 10 c).isSome)) hd
    rw [takeWhile_append_stop _ _ _ (decimal_isDigit _) (keySuffixChars_head co1),
      takeWhile_append_stop _ _ _ (decimal_isDigit _) (keySuffixChars_head co2)] at ht
    have hcid := decimal_injective _ _ ht
    rw [ht] at hd
    exact ⟨hcid, keySuffixChars_injective co1 co2 (List.append_cancel_left hd)⟩
  · rintro ⟨hc, ht⟩
    apply String.ext
    rw [resolveKey_derived v1 co1 h1, resolveKey_derived v2 co2 h2]
    unfold keySuffixChars
    rw [hc, ht]

/-! ## Disposal happens at most once -/

theorem disposalInv_congr (C : List Component) (s t : KeepAlive) (hc : t.cache = s.cache)
    (hd : t.destroyCalls = s.destroyCalls) (h : DisposalInv C s) : DisposalInv C t := by
  unfold DisposalInv at *
  rw [hc, hd]
  exact h

theorem disposalInv_mono (C C' : List Component) (s : KeepAlive) (hsub : ∀ x ∈ C, x ∈ C')
    (h : DisposalInv C s) : DisposalInv C' s :=
  ⟨h.1, fun k e hk => ⟨hsub _ (h.2.1 k e hk).1, (h.2.1 k e hk).2⟩, h.2.2.1,
    fun x hx => hsub x (h.2.2.2 x hx)⟩

theorem destroyCallsOf_cases (c : CacheEntryMap) (key : String) (cur : Option VNode) :
    destroyCallsOf c key cur = [] ∨
      ∃ e, cacheGet c key = some e ∧ destroyCallsOf c key cur = [e.componentInstance] := by
  unfold destroyCallsOf
  cases hget : cacheGet c key with
  | none => left; rfl
  | some e =>
    cases cur with
    | none => right; exact ⟨e, rfl, rfl⟩
    | some c' =>
      by_cases ht : e.tag = c'.tag
      · left; simp [ht]
      · right; exact ⟨e, rfl, by simp [ht]⟩

theorem pruneCacheEntry_disposalInv (C : List Component) (cur : Option VNode)
    (s : KeepAlive) (key : String) (h : DisposalInv C s) :
    DisposalInv C (pruneCacheEntry s key cur) := by
  obtain ⟨hnd, hlive, huniq, hsub⟩ := h
  have hcache : ∀ k e, cacheGet (pruneCacheEntry s key cur).cache k = some e →
      k ≠ key ∧ cacheGet s.cache k = some e := by
    intro k e hk
    rw [pruneCacheEntry_cache] at hk
    by_cases hkk : k = key
    · simp [hkk] at hk
    · simp only [hkk, if_false] at hk
      exact ⟨hkk, hk⟩
  have hcalls : (pruneCacheEntry s key cur).destroyCalls =
      s.destroyCalls ++ destroyCallsOf s.cache key cur := rfl
  rcases destroyCallsOf_cases s.cache key cur with h0 | ⟨e0, hget0, h1⟩
  · rw [h0, List.append_nil] at hcalls
    refine ⟨by rw [hcalls]; exact hnd, ?_, ?_, by rw [hcalls]; exact hsub⟩
    · intro k e hk
      rw [hcalls]
      exact hlive k e (hcache k e hk).2
    · intro k1 k2 e1 e2 hk1 hk2 hx
      exact huniq k1 k2 e1 e2 (hcache k1 e1 hk1).2 (hcache k2 e2 hk2).2 hx
  · rw [h1] at hcalls
    have hfresh := (hlive key e0 hget0).2
    refine ⟨?_, ?_, ?_, ?_⟩
    · rw [hcalls, List.nodup_append]
      refine ⟨hnd, List.nodup_singleton _, ?_⟩
      intro a ha hb
      rw [List.mem_singleton] at hb
      exact hfresh (hb ▸ ha)
    · intro k e hk
      obtain ⟨hne, hget⟩ := hcache k e hk
      refine ⟨(hlive k e hget).1, ?_⟩
      rw [hcalls, List.mem_append, List.mem_singleton]
      rintro (hin | heq)
      · exact (hlive k e hget).2 hin
      · exact hne (huniq k key e e0 hget hget0 heq)
    · intro k1 k2 e1 e2 hk1 hk2 hx
      exact huniq k1 k2 e1 e2 (hcache k1 e1 hk1).2 (hcache k2 e2 hk2).2 hx
    · intro x hx
      rw [hcalls, List.mem_append, List.mem_singleton] at hx
      rcases hx with hin | heq
      · exact hsub x hin
      · rw [heq]; exact (hlive key e0 hget0).1

theorem pruneCacheStep_disposalInv (C : List Component) (filter : String → Bool)
    (cur : Option VNode) (s : KeepAlive) (key : String) (h : DisposalInv C s) :
    DisposalInv C (pruneCacheStep filter cur s key) := by
  rw [pruneCacheStep_eq]
  cases cacheGet s.cache key with
  | none => exact h
  | some e =>
    by_cases hr : rejectedBy filter e = true
    · simp only [hr, if_true]
      exact pruneCacheEntry_disposalInv C cur s key h
    · have hst : (if rejectedBy filter e = true then pruneCacheEntry s key cur else s) = s := by
        simp [hr]
      simp only [hst]
      exact h

theorem committed_disposalInv (C : List Component) (s : KeepAlive) (v : VNode) (k : String)
    (h : DisposalInv C s) (hfresh : v.componentInstance ∉ C) :
    DisposalInv (C ++ [v.componentInstance]) (committed s v k) := by
  obtain ⟨hnd, hlive, huniq, hsub⟩ := h
  have hcache : ∀ k' e, cacheGet (committed s v k).cache k' = some e →
      (k' = k ∧ e.componentInstance = v.componentInstance) ∨
      (k' ≠ k ∧ cacheGet s.cache k' = some e) := by
    intro k' e hk
    by_cases hkk : k' = k
    · left
      subst hkk
      simp only [committed, cacheGet_cacheSet_self] at hk
      exact ⟨rfl, by rw [← Option.some.inj hk]⟩
    · right
      simp only [committed, cacheGet_cacheSet_ne _ _ _ _ hkk] at hk
      exact ⟨hkk, hk⟩
  refine ⟨hnd, ?_, ?_, ?_⟩
  · intro k' e hk
    show e.componentInstance ∈ C ++ [v.componentInstance] ∧ e.componentInstance ∉ s.destroyCalls
    rcases hcache k' e hk with ⟨-, hi⟩ | ⟨-, hget⟩
    · rw [hi]
      exact ⟨by simp, fun hin => hfresh (hsub _ hin)⟩
    · exact ⟨List.mem_append_left _ (hlive k' e hget).1, (hlive k' e hget).2⟩
  · intro k1 k2 e1 e2 hk1 hk2 hx
    rcases hcache k1 e1 hk1 with ⟨h1, hi1⟩ | ⟨-, hget1⟩
    · rcases hcache k2 e2 hk2 with ⟨h2, -⟩ | ⟨-, hget2⟩
      · rw [h1, h2]
      · exact absurd (by rw [← hi1, hx]; exact (hlive k2 e2 hget2).1) hfresh
    · rcases hcache k2 e2 hk2 with ⟨-, hi2⟩ | ⟨-, hget2⟩
      · exact absurd (by rw [← hi2, ← hx]; exact (hlive k1 e1 hget1).1) hfresh
      · exact huniq k1 k2 e1 e2 hget1 hget2 hx
  · intro x hx
    exact List.mem_append_left _ (hsub x hx)

theorem cacheVNode_disposalInv (C : List Component) (s : KeepAlive) (v : VNode)
    (hinv : Inv s) (h : DisposalInv C s) (hv : s.vnodeToCache = some v)
    (hfresh : v.componentInstance ∉ C) :
    DisposalInv (C ++ [v.componentInstance]) (cacheVNode s) := by
  obtain ⟨k, hk, -⟩ := hinv.2 v hv
  have hc := committed_disposalInv C s v k h hfresh
  cases hmax : exceedsMax s.max (s.keys.length + 1) with
  | false =>
    rw [cacheVNode_noEvict s v k hv hk hmax]
    exact disposalInv_congr _ _ _ rfl rfl hc
  | true =>
    rw [cacheVNode_evict s v k hv hk hmax]
    exact disposalInv_congr _ _ _ rfl rfl
      (pruneCacheEntry_disposalInv _ s._vnode (committed s v k) ((s.keys ++ [k]).headD k) hc)

theorem render_cache_calls (s : KeepAlive) (slot : Option (List VNode))
    (g : Option (List VNode) → Option VNode) :
    (render s slot g).1.cache = s.cache ∧ (render s slot g).1.destroyCalls = s.destroyCalls := by
  cases hg : g slot with
  | none => simp [render, hg]
  | some vnode =>
    cases hco : vnode.componentOptions with
    | none => simp [render, hg, hco]
    | some co =>
      rw [render_candidate s slot g vnode co hg hco]
      split
      · exact ⟨rfl, rfl⟩
      · cases hget : cacheGet s.cache (resolveKey vnode co) with
        | none => rw [renderCacheable_miss s vnode co hget]; exact ⟨rfl, rfl⟩
        | some e => rw [renderCacheable_hit s vnode co e hget]; exact ⟨rfl, rfl⟩

theorem step_disposalInv (C : List Component) (s : KeepAlive) (op : Op) (hinv : Inv s)
    (h : DisposalInv C s) (hnd : (C ++ commitOf s op).Nodup) :
    DisposalInv (C ++ commitOf s op) (step s op) := by
  cases op with
  | cacheVNode =>
    cases hv : s.vnodeToCache with
    | none =>
      have hc : commitOf s Op.cacheVNode = [] := by simp [commitOf, hv]
      rw [hc, List.append_nil]
      show DisposalInv C (cacheVNode s)
      rw [cacheVNode_none s hv]
      exact h
    | some v =>
      have hc : commitOf s Op.cacheVNode = [v.componentInstance] := by simp [commitOf, hv]
      rw [hc] at hnd ⊢
      have hfresh : v.componentInstance ∉ C := by
        intro hin
        exact (List.nodup_append.1 hnd).2.2 hin (List.mem_singleton_self _)
      exact cacheVNode_disposalInv C s v hinv h hv hfresh
  | render slot g =>
    show DisposalInv (C ++ []) _
    rw [List.append_nil]
    exact disposalInv_congr C s _ (render_cache_calls s slot g).1
      (render_cache_calls s slot g).2 h
  | includeWatcher val =>
    show DisposalInv (C ++ []) _
    rw [List.append_nil]
    exact foldl_preserves (DisposalInv C) _ (pruneCacheStep_disposalInv C _ s._vnode) _ s h
  | excludeWatcher val =>
    show DisposalInv (C ++ []) _
    rw [List.append_nil]
    exact foldl_preserves (DisposalInv C) _ (pruneCacheStep_disposalInv C _ s._vnode) _ s h
  | destroyed =>
    show DisposalInv (C ++ []) _
    rw [List.append_nil]
    exact foldl_preserves (DisposalInv C) _
      (fun st key hst => pruneCacheEntry_disposalInv C none st key hst) _ s h
  | setInclude val => show DisposalInv (C ++ []) _; rw [List.append_nil]; exact h
  | setExclude val => show DisposalInv (C ++ []) _; rw [List.append_nil]; exact h
  | setMax val => show DisposalInv (C ++ []) _; rw [List.append_nil]; exact h
  | setVnode val => show DisposalInv (C ++ []) _; rw [List.append_nil]; exact h

theorem run_disposalInv (ops : List Op) (s : KeepAlive) (C : List Component) (hinv : Inv s)
    (h : DisposalInv C s) (hnd : (C ++ commitsOf s ops).Nodup) :
    DisposalInv (C ++ commitsOf s ops) (run s ops) := by
  induction ops generalizing s C with
  | nil => simpa [commitsOf, run] using h
  | cons op rest ih =>
    show DisposalInv (C ++ commitsOf s (op :: rest)) (run (step s op) rest)
    unfold commitsOf
    unfold commitsOf at hnd
    rw [← List.append_assoc] at hnd ⊢
    exact ih (step s op) _ (step_inv s op hinv)
      (step_disposalInv C s op hinv h (List.nodup_append.1 hnd).1) hnd

theorem created_disposalInv (inc exc : Option Pattern) (max : Option MaxProp) :
    DisposalInv [] (created inc exc max) := by
  refine ⟨by simp [created], ?_, ?_, by simp [created]⟩
  · intro k e hk; simp [created, cacheGet] at hk
  · intro k1 k2 e1 e2 hk1; simp [created, cacheGet] at hk1

/-! ## The pattern matcher -/

theorem indexOf_ge (l : List String) (x : String) : -1 ≤ indexOf l x := by
  induction l with
  | nil => simp [indexOf]
  | cons y ys ih =>
    unfold indexOf
    split
    · norm_num
    · simp only
      split
      · norm_num
      · omega

theorem indexOf_gt_iff (l : List String) (x : String) : indexOf l x > -1 ↔ x ∈ l := by
  induction l with
  | nil => simp [indexOf]
  | cons y ys ih =>
    have hge := indexOf_ge ys x
    unfold indexOf
    by_cases h : y = x
    · simp [h]
    · have hne : ¬ x = y := fun hxy => h hxy.symm
      simp only [h, if_false, List.mem_cons, hne, false_or]
      rw [← ih]
      split
      · omega
      · omega

theorem splitCommaChars_ne_nil (cs : List Char) : splitCommaChars cs ≠ [] := by
  cases cs with
  | nil => simp [splitCommaChars]
  | cons c cs =>
    unfold splitCommaChars
    split
    · simp
    · split <;> simp

theorem splitCommaChars_intercalate (cs : List Char) :
    [','].intercalate (splitCommaChars cs) = cs := by
  induction cs with
  | nil => simp [splitCommaChars, List.intercalate]
  | cons c cs ih =>
    unfold splitCommaChars
    cases hs : splitCommaChars cs with
    | nil => exact absurd hs (splitCommaChars_ne_nil cs)
    | cons seg segs =>
      rw [hs] at ih
      by_cases hc : c = ','
      · subst hc
        simp only [if_true]
        simp [List.intercalate, List.intersperse] at ih ⊢
        exact ih
      · simp only [hc, if_false]
        cases segs with
        | nil =>
          simp [List.intercalate, List.intersperse] at ih ⊢
          exact ih
        | cons s2 rest =>
          simp [List.intercalate, List.intersperse] at ih ⊢
          exact ih

theorem splitCommaChars_no_comma (cs : List Char) :
    ∀ seg ∈ splitCommaChars cs, ',' ∉ seg := by
  induction cs with
  | nil => simp [splitCommaChars]
  | cons c cs ih =>
    unfold splitCommaChars
    cases hs : splitCommaChars cs with
    | nil => simp
    | cons seg segs =>
      rw [hs] at ih
      by_cases hc : c = ','
      · simp only [hc, if_true]
        intro x hx
        rcases List.mem_cons.1 hx with h | h
        · simp [h]
        · exact ih x h
      · simp only [hc, if_false]
        intro x hx
        rcases List.mem_cons.1 hx with h | h
        · subst h
          have := ih seg (List.mem_cons_self _ _)
          simp only [List.mem_cons, not_or]
          exact ⟨fun hh => hc hh.symm, this⟩
        · exact ih x (List.mem_cons_of_mem _ h)

theorem matches_truthy (p : Option Pattern) (n : String) (hn : n ≠ "")
    (h : «matches» p n = true) : truthyPattern p = true := by
  cases p with
  | none => simp [«matches»] at h
  | some pat =>
    cases pat with
    | array items => rfl
    | regExp r => rfl
    | other t => simp [«matches»] at h
    | string s =>
      by_cases hs : s = ""
      · subst hs
        have : indexOf (splitComma "") n = -1 := by
          have hne : ¬ ("" = n) := fun hh => hn hh.symm
          simp [splitComma, splitCommaChars, indexOf, hne]
        simp [«matches», this] at h
      · simp [truthyPattern, hs]

theorem filteredOut_eq (s : KeepAlive) (name : Option String) :
    filteredOut s name = !falsyIncludeCacheable s.include_ s.exclude name := by
  unfold filteredOut falsyIncludeCacheable specMatches
  cases hn : truthyStr name with
  | false => simp
  | true =>
    have hne : name.getD "" ≠ "" := by
      cases name with
      | none => simp [truthyStr] at hn
      | some n => simpa [truthyStr] using hn
    cases hm : «matches» s.exclude (name.getD "") with
    | false => simp
    | true =>
      have ht := matches_truthy s.exclude _ hne hm
      have hs : s.exclude.isSome = true := by
        cases hex : s.exclude with
        | none => simp [hex, truthyPattern] at ht
        | some _ => rfl
      simp [ht, hs]

/-! ## The size bound -/

theorem decimal_ne_empty (n : Nat) : decimal n ≠ "" := by
  intro h
  have h2 := congrArg String.data h
  simp [decimal, digitsLE_ne_nil] at h2

theorem parseRadix_digit_stop (d : Nat) (c : Char) (t : List Char)
    (hc : c = '.' ∨ c = 'e') :
    parseRadix (digitChar d :: c :: t) = (10, digitChar d :: c :: t) := by
  rcases hc with rfl | rfl <;> (unfold digitChar; split <;> rfl)

theorem parseIntChars_digit_stop (d : Nat) (hd : d < 10) (c : Char) (t : List Char)
    (hc : c = '.' ∨ c = 'e') :
    parseIntChars (digitChar d :: c :: t) = some (d : Int) := by
  have hstop : (digitValue 10 c).isSome = false := by
    rcases hc with rfl | rfl <;> decide
  have htake : List.takeWhile (fun c => (digitValue 10 c).isSome) (digitChar d :: c :: t)
      = [digitChar d] := by
    simp [List.takeWhile_cons, digitValue_digitChar d hd, hstop]
  have hval : digitsValue 10 [digitChar d] = d := by
    simp [digitsValue, digitValue_digitChar d hd]
  simp [parseIntChars, List.dropWhile_cons, digitChar_not_space, parseSign_digitChar,
    parseRadix_digit_stop d c t hc, htake, hval]

theorem parseIntChars_exponentForm (c : Nat) :
    ∃ d : Nat, d < 10 ∧ parseIntChars (exponentForm c) = some (d : Int) := by
  unfold exponentForm
  simp only
  cases hsig : (((digitsLE (c + 1) c).reverse.reverse.dropWhile
      (fun d => decide (d = 0))).reverse) with
  | nil =>
    refine ⟨0, by norm_num, ?_⟩
    show parseIntChars ['0'] = some ((0 : Nat) : Int)
    decide
  | cons d rest =>
    have hmem : d ∈ digitsLE (c + 1) c := by
      have h1 : d ∈ ((digitsLE (c + 1) c).reverse.reverse.dropWhile
          (fun d => decide (d = 0))).reverse := by rw [hsig]; exact List.mem_cons_self _ _
      have h2 := List.mem_reverse.1 h1
      have h3 := (List.dropWhile_suffix _).subset h2
      simpa using h3
    have hd : d < 10 := digitsLE_lt _ _ d hmem
    refine ⟨d, hd, ?_⟩
    by_cases hrest : rest.isEmpty = true
    · simp only [hrest, if_true, List.nil_append]
      exact parseIntChars_digit_stop d hd 'e' _ (Or.inr rfl)
    · simp only [hrest, List.cons_append]
      exact parseIntChars_digit_stop d hd '.' _ (Or.inl rfl)

theorem parseInt_number_small (N : Nat) (h : N < 10 ^ 21) :
    parseInt (MaxProp.number (N : Int)) = some (N : Int) := by
  show parseIntChars (intToString (Int.ofNat N)).data = _
  simp only [intToString, numberToString, h, if_true]
  exact parseIntChars_decimal N

theorem parseInt_number_large (N : Nat) (h : ¬ N < 10 ^ 21) :
    ∃ d : Nat, d < 10 ∧ parseInt (MaxProp.number (N : Int)) = some (d : Int) := by
  show ∃ d : Nat, d < 10 ∧ parseIntChars (intToString (Int.ofNat N)).data = _
  simp only [intToString, numberToString, h, if_false]
  exact parseIntChars_exponentForm _

theorem exceedsMax_fixed (N : Nat) (hN : 0 < N) (m : MaxProp) (hm : IsMaxOf N m)
    (hsafe : m = MaxProp.number (N : Int) → N < 10 ^ 21) (len : Nat) :
    exceedsMax (some m) len = decide (N < len) := by
  rcases hm with rfl | rfl
  · have hne : (N : Int) ≠ 0 := by exact_mod_cast (Nat.pos_iff_ne_zero.1 hN)
    have hp := parseInt_number_small N (hsafe rfl)
    simp [exceedsMax, truthyMax, hne, hp]
  · have hp : parseInt (MaxProp.string (decimal N)) = some (N : Int) := parseIntChars_decimal N
    simp [exceedsMax, truthyMax, decimal_ne_empty, hp]

theorem exceedsMax_bound (N : Nat) (hN : 0 < N) (m : MaxProp) (hm : IsMaxOf N m) :
    ∃ B : Nat, B ≤ N ∧ ∀ len : Nat, exceedsMax (some m) len = decide (B < len) := by
  by_cases hsafe : m = MaxProp.number (N : Int) → N < 10 ^ 21
  · exact ⟨N, le_refl N, exceedsMax_fixed N hN m hm hsafe⟩
  · have hm' : m = MaxProp.number (N : Int) := by
      by_contra hne
      exact hsafe (fun h => absurd h hne)
    have hbig : ¬ N < 10 ^ 21 := fun h => hsafe (fun _ => h)
    subst hm'
    obtain ⟨d, hd, hp⟩ := parseInt_number_large N hbig
    have hne : (N : Int) ≠ 0 := by exact_mod_cast (Nat.pos_iff_ne_zero.1 hN)
    refine ⟨d, ?_, ?_⟩
    · have : (10 : Nat) ^ 21 ≤ N := Nat.le_of_not_lt hbig
      have h10 : (10 : Nat) ≤ 10 ^ 21 := by norm_num
      omega
    · intro len
      simp [exceedsMax, truthyMax, hne, hp]

theorem remove_length_le (l : List String) (x : String) : (remove l x).length ≤ l.length := by
  rw [remove_eq_erase]
  exact List.length_erase_le x l

theorem pruneCacheEntry_bounded (N : Nat) (m : MaxProp) (current : Option VNode)
    (s : KeepAlive) (key : String) (h : Bounded N m s) :
    Bounded N m (pruneCacheEntry s key current) :=
  ⟨h.1, le_trans (remove_length_le s.keys key) h.2⟩

theorem pruneCacheStep_bounded (N : Nat) (m : MaxProp) (filter : String → Bool)
    (current : Option VNode) (s : KeepAlive) (key : String) (h : Bounded N m s) :
    Bounded N m (pruneCacheStep filter current s key) := by
  unfold pruneCacheStep
  split
  · exact h
  · split
    · exact h
    · split
      · exact pruneCacheEntry_bounded N m current s key h
      · exact h

theorem pruneCache_bounded (N : Nat) (m : MaxProp) (s : KeepAlive) (filter : String → Bool)
    (h : Bounded N m s) : Bounded N m (pruneCache s filter) :=
  foldl_preserves (Bounded N m) _ (pruneCacheStep_bounded N m filter s._vnode) _ s h

theorem destroyed_bounded (N : Nat) (m : MaxProp) (s : KeepAlive) (h : Bounded N m s) :
    Bounded N m (destroyed s) :=
  foldl_preserves (Bounded N m) _
    (fun st key hst => pruneCacheEntry_bounded N m none st key hst) _ s h

theorem cacheVNode_bounded (N : Nat) (m : MaxProp)
    (hexc : ∀ len : Nat, exceedsMax (some m) len = decide (N < len))
    (s : KeepAlive) (hinv : Inv s) (h : Bounded N m s) : Bounded N m (cacheVNode s) := by
  cases hv : s.vnodeToCache with
  | none => rw [cacheVNode_none s hv]; exact h
  | some v =>
    obtain ⟨k, hk, -⟩ := hinv.2 v hv
    have hex := hexc (s.keys.length + 1)
    rw [← h.1] at hex
    by_cases hlen : N < s.keys.length + 1
    · rw [cacheVNode_evict s v k hv hk (by simp [hex, hlen])]
      refine ⟨h.1, ?_⟩
      show (remove (s.keys ++ [k]) ((s.keys ++ [k]).headD k)).length ≤ N
      have hmem : (s.keys ++ [k]).headD k ∈ s.keys ++ [k] := by
        cases s.keys <;> simp
      rw [remove_eq_erase, List.length_erase_of_mem hmem]
      simpa using h.2
    · rw [cacheVNode_noEvict s v k hv hk (by simp [hex, hlen])]
      refine ⟨h.1, ?_⟩
      show (s.keys ++ [k]).length ≤ N
      simp
      omega

theorem renderCacheable_bounded (N : Nat) (m : MaxProp) (s : KeepAlive) (vnode : VNode)
    (co : VNodeComponentOptions) (hinv : Inv s) (h : Bounded N m s) :
    Bounded N m (renderCacheable s vnode co).1 := by
  cases hget : cacheGet s.cache (resolveKey vnode co) with
  | none => rw [renderCacheable_miss s vnode co hget]; exact h
  | some entry =>
    rw [renderCacheable_hit s vnode co entry hget]
    have hin : resolveKey vnode co ∈ s.keys := (hinv.1.2 _).2 (by simp [hget])
    refine ⟨h.1, ?_⟩
    show (remove s.keys (resolveKey vnode co) ++ [resolveKey vnode co]).length ≤ N
    rw [remove_eq_erase, List.length_append, List.length_erase_of_mem hin]
    have hpos : 0 < s.keys.length := List.length_pos_of_mem hin
    have := h.2
    simp
    omega

theorem render_bounded (N : Nat) (m : MaxProp) (s : KeepAlive) (slot : Option (List VNode))
    (g : Option (List VNode) → Option VNode) (hinv : Inv s) (h : Bounded N m s) :
    Bounded N m (render s slot g).1 := by
  cases hg : g slot with
  | none => simpa [render, hg] using h
  | some vnode =>
    cases hco : vnode.componentOptions with
    | none => simpa [render, hg, hco] using h
    | some co =>
      rw [render_candidate s slot g vnode co hg hco]
      split
      · exact h
      · exact renderCacheable_bounded N m s vnode co hinv h

theorem step_bounded (N : Nat) (m : MaxProp)
    (hexc : ∀ len : Nat, exceedsMax (some m) len = decide (N < len)) (s : KeepAlive)
    (op : Op) (hop : op.changesMax = false) (hinv : Inv s) (h : Bounded N m s) :
    Bounded N m (step s op) := by
  cases op with
  | render slot g => exact render_bounded N m s slot g hinv h
  | cacheVNode => exact cacheVNode_bounded N m hexc s hinv h
  | includeWatcher val => exact pruneCache_bounded N m s _ h
  | excludeWatcher val => exact pruneCache_bounded N m s _ h
  | destroyed => exact destroyed_bounded N m s h
  | setInclude val => exact h
  | setExclude val => exact h
  | setMax val => simp [Op.changesMax] at hop
  | setVnode val => exact h

theorem run_bounded (N : Nat) (m : MaxProp)
    (hexc : ∀ len : Nat, exceedsMax (some m) len = decide (N < len)) (ops : List Op)
    (hops : ∀ op ∈ ops, op.changesMax = false) (s : KeepAlive) (hinv : Inv s)
    (h : Bounded N m s) : Inv (run s ops) ∧ Bounded N m (run s ops) := by
  induction ops generalizing s with
  | nil => exact ⟨hinv, h⟩
  | cons op rest ih =>
    have hop := hops op (List.mem_cons_self _ _)
    exact ih (fun o ho => hops o (List.mem_cons_of_mem _ ho)) (step s op)
      (step_inv s op hinv) (step_bounded N m hexc s op hop hinv h)

/-! ## Eviction on commit -/

theorem cacheVNode_eviction_disposal (s : KeepAlive) (v : VNode) (k oldest : String)
    (e : CacheEntry) (hv : s.vnodeToCache = some v) (hk : s.keyToCache = some k)
    (hmax : exceedsMax s.max (s.keys.length + 1) = true)
    (ho : (s.keys ++ [k]).head? = some oldest)
    (he : cacheGet (committed s v k).cache oldest = some e) :
    cacheGet (cacheVNode s).cache oldest = none ∧
    (cacheVNode s).keys = (s.keys ++ [k]).tail ∧
    ((cacheVNode s).destroyCalls = s.destroyCalls ++ [e.componentInstance] ∨
      (cacheVNode s).destroyCalls = s.destroyCalls) ∧
    ((cacheVNode s).destroyCalls = s.destroyCalls ++ [e.componentInstance] ↔
      (s._vnode = none ∨ ∃ cur, s._vnode = some cur ∧ e.tag ≠ cur.tag)) ∧
    (∀ cur, s._vnode = some cur → cur.tag = v.tag →
      ((cacheVNode s).destroyCalls = s.destroyCalls ++ [e.componentInstance] ↔
        e.tag ≠ (entryOf v).tag)) := by
  have hhead : (s.keys ++ [k]).headD k = oldest := by
    cases hkeys : s.keys with
    | nil => simpa [hkeys] using ho
    | cons a as => simpa [hkeys] using ho
  have hcalls : (cacheVNode s).destroyCalls =
      s.destroyCalls ++ (if notExempt s._vnode e = true then [e.componentInstance] else []) := by
    rw [cacheVNode_evict s v k hv hk hmax, hhead]
    show (committed s v k).destroyCalls ++
      destroyCallsOf (committed s v k).cache oldest s._vnode = _
    have hd : (committed s v k).destroyCalls = s.destroyCalls := rfl
    rw [hd]
    cases hcur : s._vnode with
    | none => simp [destroyCallsOf, he, notExempt]
    | some cur =>
      by_cases ht : e.tag = cur.tag
      · simp [destroyCallsOf, he, notExempt, ht]
      · simp [destroyCallsOf, he, notExempt, ht]
  have hiff : (cacheVNode s).destroyCalls = s.destroyCalls ++ [e.componentInstance] ↔
      (s._vnode = none ∨ ∃ cur, s._vnode = some cur ∧ e.tag ≠ cur.tag) := by
    rw [hcalls]
    cases hcur : s._vnode with
    | none => simp [notExempt]
    | some cur =>
      by_cases ht : e.tag = cur.tag
      · simp [notExempt, ht]
      · simp [notExempt, ht]
  refine ⟨?_, ?_, ?_, hiff, ?_⟩
  · rw [cacheVNode_evict s v k hv hk hmax, hhead]
    simp [pruneCacheEntry, cacheGet_cacheSet_self]
  · rw [cacheVNode_evict s v k hv hk hmax, hhead]
    show remove (s.keys ++ [k]) oldest = _
    cases hkeys : s.keys with
    | nil =>
      have : k = oldest := by simpa [hkeys] using ho
      simp [remove, this]
    | cons a as =>
      have : a = oldest := by simpa [hkeys] using ho
      simp [remove, this]
  · rw [hcalls]
    by_cases hne : notExempt s._vnode e = true
    · simp [hne]
    · simp [hne]
  · intro cur hcur htag
    rw [hiff, hcur]
    simp [entryOf, htag]


theorem render_staged (s : KeepAlive) (slot : Option (List VNode))
    (g : Option (List VNode) → Option VNode) (v : VNode) (hpend : s.vnodeToCache = none)
    (hv : (render s slot g).1.vnodeToCache = some v) :
    (render s slot g).2 = some v ∧ (render s slot g).1.keys = s.keys ∧
    (render s slot g).1.cache = s.cache ∧ (render s slot g).1.max = s.max ∧
    (render s slot g).1.destroyCalls = s.destroyCalls := by
  cases hg : g slot with
  | none => simp [render, hg, hpend] at hv
  | some vnode =>
    cases hco : vnode.componentOptions with
    | none => simp [render, hg, hco, hpend] at hv
    | some co =>
      rw [render_candidate s slot g vnode co hg hco] at hv ⊢
      by_cases hf : filteredOut s (getComponentName (some co)) = true
      · simp [hf, hpend] at hv
      · simp only [hf] at hv ⊢
        cases hget : cacheGet s.cache (resolveKey vnode co) with
        | some entry =>
          rw [renderCacheable_hit s vnode co entry hget] at hv
          simp [hpend] at hv
        | none =>
          rw [renderCacheable_miss s vnode co hget] at hv ⊢
          simp at hv
          simp [hv]

/-! ## The claims -/

/-- C1 (key-set invariant): in every state reachable from a freshly created
keep-alive by render passes, `cacheVNode` commits, watcher sweeps, teardown and
prop changes, `keys` has no duplicates and its elements are exactly the keys
whose cache entry is non-null. -/
theorem C1_keySet_invariant_reachable (s : KeepAlive) (h : Reachable s) :
    s.keys.Nodup ∧ ∀ k, k ∈ s.keys ↔ (cacheGet s.cache k).isSome = true := by
  obtain ⟨inc, exc, max, ops, rfl⟩ := h
  exact (run_inv _ ops (created_inv inc exc max)).1

/-- C2 (size bound): with `max` fixed at a positive integer `N`, given as a
number or as its decimal string, in every state reached from the empty cache
the number of live entries (`keys.length`) immediately after a `cacheVNode`
call is at most `N`. -/
theorem C2_size_bound (N : Nat) (hN : 0 < N) (m : MaxProp) (hm : IsMaxOf N m)
    (inc exc : Option Pattern) (ops : List Op) (hops : ∀ op ∈ ops, op.changesMax = false) :
    (cacheVNode (run (created inc exc (some m)) ops)).keys.length ≤ N := by
  obtain ⟨B, hBN, hexc⟩ := exceedsMax_bound N hN m hm
  have h0 : Bounded B m (created inc exc (some m)) := ⟨rfl, by simp [created]⟩
  obtain ⟨hinv, hb⟩ := run_bounded B m hexc ops hops _ (created_inv inc exc (some m)) h0
  exact le_trans (cacheVNode_bounded B m hexc _ hinv hb).2 hBN

/-- Witness of C1 on scenario 1, where the keys are `A` and `B`. -/
theorem C1_keySet_invariant_reachable_witness :
    Reachable scenario1 ∧ scenario1.keys = ["A", "B"] ∧
      (scenario1.keys.Nodup ∧
        ∀ k, k ∈ scenario1.keys ↔ (cacheGet scenario1.cache k).isSome = true) :=
  ⟨⟨_, _, _, _, rfl⟩, by decide,
    C1_keySet_invariant_reachable scenario1 ⟨_, _, _, _, rfl⟩⟩

/-- Witness of C2: scenario 1 with `max = 2`, after the third commit. -/
theorem C2_size_bound_witness :
    (cacheVNode (run (created none none (some (MaxProp.number 2)))
        (cycle sampleA ++ cycle sampleB ++ cycle sampleC))).keys.length ≤ 2 :=
  C2_size_bound 2 (by decide) (MaxProp.number 2) (Or.inl rfl) none none
    (cycle sampleA ++ cycle sampleB ++ cycle sampleC) (by decide)

/-- C3, as stated, fails: with `max` the number `1e21` and one key in the
store, far below `max`, the commit of `B` evicts `A`: `String(1e21)` is
`"1e+21"`, on which `parseInt` gives 1. -/
theorem C3_counterexample :
    hugeMax.max = some (MaxProp.number 1000000000000000000000) ∧
    intToString 1000000000000000000000 = "1e+21" ∧
    parseInt (MaxProp.number 1000000000000000000000) = some 1 ∧
    hugeMax.keys = ["A"] ∧
    hugeMax.keyToCache = some "B" ∧
    (hugeMax.keys.length : Int) < 1000000000000000000000 ∧
    (cacheVNode hugeMax).keys = ["B"] ∧
    (cacheVNode hugeMax).keys ≠ hugeMax.keys ++ ["B"] ∧
    cacheGet (cacheVNode hugeMax).cache "A" = none ∧
    (cacheVNode hugeMax).destroyCalls = [10] := by
  decide

/-- C3 (amended): for a store whose keys are duplicate-free and a pending key
`k` not among them, with `max` the integer `N ≥ 1` given as its decimal string
or as a number below `10 ^ 21`: when the store holds `N` keys, `cacheVNode`
leaves the previous keys without their first element and with `k` appended,
empties the slot of the evicted (oldest) key and keeps the new entry live;
when it holds fewer than `N` keys, `keys` is the previous keys with `k`
appended, no slot is emptied and nothing is disposed. -/
theorem C3_lru_eviction_order (s : KeepAlive) (N : Nat) (hN : 1 ≤ N) (m : MaxProp)
    (hm : IsMaxOf N m) (hsafe : m = MaxProp.number (N : Int) → N < 10 ^ 21)
    (hmax : s.max = some m) (v : VNode) (k : String)
    (hv : s.vnodeToCache = some v) (hk : s.keyToCache = some k)
    (hnd : s.keys.Nodup) (hfresh : k ∉ s.keys) :
    (s.keys.length = N →
      (cacheVNode s).keys = s.keys.tail ++ [k] ∧
      (∀ oldest, s.keys.head? = some oldest →
        cacheGet (cacheVNode s).cache oldest = none ∧ oldest ∉ (cacheVNode s).keys) ∧
      cacheGet (cacheVNode s).cache k = some (entryOf v)) ∧
    (s.keys.length < N →
      (cacheVNode s).keys = s.keys ++ [k] ∧
      (cacheVNode s).cache = cacheSet s.cache k (some (entryOf v)) ∧
      (cacheVNode s).destroyCalls = s.destroyCalls) := by
  have hex := exceedsMax_fixed N hN m hm hsafe (s.keys.length + 1)
  rw [← hmax] at hex
  constructor
  · intro hlen
    rw [cacheVNode_evict s v k hv hk (by rw [hex]; exact decide_eq_true (by omega))]
    cases hkeys : s.keys with
    | nil => simp [hkeys] at hlen; omega
    | cons a as =>
      have hak : k ≠ a := by
        intro h; apply hfresh; simp [hkeys, h]
      have hnd2 : a ∉ as := by
        have := hnd; rw [hkeys] at this; exact (List.nodup_cons.1 this).1
      refine ⟨?_, ?_, ?_⟩
      · simp [pruneCacheEntry, committed, hkeys, remove]
      · intro oldest ho
        simp at ho
        subst ho
        refine ⟨by simp [pruneCacheEntry, committed, hkeys, cacheGet_cacheSet_self], ?_⟩
        simp [pruneCacheEntry, committed, hkeys, remove, hnd2, hak.symm]
      · simp [pruneCacheEntry, committed, hkeys, cacheGet_cacheSet_ne _ _ _ _ hak,
          cacheGet_cacheSet_self, entryOf]
  · intro hlen
    rw [cacheVNode_noEvict s v k hv hk (by rw [hex]; exact decide_eq_false (by omega))]
    exact ⟨rfl, rfl, rfl⟩

/-- Witness of C3 on scenario 1: `max = 2`, commits `A`, `B`, `C` give `[B, C]`. -/
theorem C3_lru_eviction_order_witness :
    (cacheVNode scenario1).keys = ["B", "C"] ∧
      ((scenario1.keys.length = 2 →
        (cacheVNode scenario1).keys = scenario1.keys.tail ++ ["C"] ∧
        (∀ oldest, scenario1.keys.head? = some oldest →
          cacheGet (cacheVNode scenario1).cache oldest = none ∧
            oldest ∉ (cacheVNode scenario1).keys) ∧
        cacheGet (cacheVNode scenario1).cache "C" =
          some (entryOf { sampleC with data := { keepAlive := true } })) ∧
      (scenario1.keys.length < 2 →
        (cacheVNode scenario1).keys = scenario1.keys ++ ["C"] ∧
        (cacheVNode scenario1).cache =
          cacheSet scenario1.cache "C"
            (some (entryOf { sampleC with data := { keepAlive := true } })) ∧
        (cacheVNode scenario1).destroyCalls = scenario1.destroyCalls)) :=
  ⟨by decide,
    C3_lru_eviction_order scenario1 2 (by decide) (MaxProp.number 2) (Or.inl rfl)
      (fun _ => by norm_num) rfl
      { sampleC with data := { keepAlive := true } } "C" rfl rfl (by decide) (by decide)⟩

/-- C4 (tie-break exemption on commit): in the host's update (render, the
returned vnode installed as `_vnode`, then the hook), whenever the commit
evicts the oldest entry `e` to satisfy `max`, the evicted key leaves the cache
and `keys` unconditionally, and `e` is disposed if and only if its tag is not
equal to the tag of the entry just committed. -/
theorem C4_tie_break_on_commit (s : KeepAlive) (slot : Option (List VNode))
    (g : Option (List VNode) → Option VNode) (v : VNode) (k oldest : String)
    (e : CacheEntry) (hpend : s.vnodeToCache = none)
    (hv : (render s slot g).1.vnodeToCache = some v)
    (hk : (render s slot g).1.keyToCache = some k)
    (hmax : exceedsMax s.max (s.keys.length + 1) = true)
    (ho : (s.keys ++ [k]).head? = some oldest)
    (he : cacheGet (cacheSet s.cache k (some (entryOf v))) oldest = some e) :
    cacheGet (hostUpdate s slot g).cache oldest = none ∧
    (hostUpdate s slot g).keys = (s.keys ++ [k]).tail ∧
    ((hostUpdate s slot g).destroyCalls = s.destroyCalls ++ [e.componentInstance] ∨
      (hostUpdate s slot g).destroyCalls = s.destroyCalls) ∧
    ((hostUpdate s slot g).destroyCalls = s.destroyCalls ++ [e.componentInstance] ↔
      e.tag ≠ (entryOf v).tag) := by
  obtain ⟨hret, hkeys, hcache, hmaxeq, hcalls⟩ := render_staged s slot g v hpend hv
  have h := cacheVNode_eviction_disposal
    { (render s slot g).1 with _vnode := (render s slot g).2 } v k oldest e hv hk
    (by show exceedsMax (render s slot g).1.max ((render s slot g).1.keys.length + 1) = true
        rw [hmaxeq, hkeys]; exact hmax)
    (by show ((render s slot g).1.keys ++ [k]).head? = some oldest
        rw [hkeys]; exact ho)
    (by show cacheGet (cacheSet (render s slot g).1.cache k (some (entryOf v))) oldest = some e
        rw [hcache]; exact he)
  obtain ⟨h1, h2, h3, -, h5⟩ := h
  have hd : ({ (render s slot g).1 with _vnode := (render s slot g).2 } : KeepAlive).destroyCalls
      = s.destroyCalls := hcalls
  have hkk : ({ (render s slot g).1 with _vnode := (render s slot g).2 } : KeepAlive).keys
      = s.keys := hkeys
  rw [hd] at h3
  rw [hkk] at h2
  refine ⟨h1, h2, h3, ?_⟩
  have h5' := h5 v hret rfl
  rw [hd] at h5'
  exact h5'

/-- Witness of C4, scenarios 1 and 2: with `A` (tag `x`) and `B` cached and
`max = 2`, the update that commits `C` (tag `z`) disposes `A` (instance 10),
and the update that commits `C` with the tag `x` removes `A` without disposal. -/
theorem C4_tie_break_on_commit_witness :
    (hostUpdate twoCachedMax2 (some [sampleC]) (fun _ => some sampleC)).destroyCalls = [10] ∧
    (hostUpdate twoCachedMax2 (some [sampleCx]) (fun _ => some sampleCx)).destroyCalls = [] ∧
    (hostUpdate twoCachedMax2 (some [sampleCx]) (fun _ => some sampleCx)).keys = ["B", "C"] ∧
    (cacheGet (hostUpdate twoCachedMax2 (some [sampleC]) (fun _ => some sampleC)).cache "A"
        = none ∧
      (hostUpdate twoCachedMax2 (some [sampleC]) (fun _ => some sampleC)).keys =
        (twoCachedMax2.keys ++ ["C"]).tail ∧
      ((hostUpdate twoCachedMax2 (some [sampleC]) (fun _ => some sampleC)).destroyCalls =
          twoCachedMax2.destroyCalls ++ [(entryOf sampleA).componentInstance] ∨
        (hostUpdate twoCachedMax2 (some [sampleC]) (fun _ => some sampleC)).destroyCalls =
          twoCachedMax2.destroyCalls) ∧
      ((hostUpdate twoCachedMax2 (some [sampleC]) (fun _ => some sampleC)).destroyCalls =
          twoCachedMax2.destroyCalls ++ [(entryOf sampleA).componentInstance] ↔
        (entryOf sampleA).tag ≠
          (entryOf { sampleC with data := { keepAlive := true } }).tag)) :=
  ⟨by decide, by decide, by decide,
    C4_tie_break_on_commit twoCachedMax2 (some [sampleC]) (fun _ => some sampleC)
      { sampleC with data := { keepAlive := true } } "C" "A" (entryOf sampleA)
      (by decide) (by decide) (by decide) (by decide) (by decide) (by decide)⟩

/-- C5, as stated, fails: in `twoCached` the include watcher with the new
value `"foo"` removes the entry `B` (name `bar`) from cache and keys without
any `$destroy()`, because `B` carries the tag of the current vnode. -/
theorem C5_counterexample :
    cacheGet twoCached.cache "B" = some (entryOf sampleB) ∧
    twoCached.keys = ["A", "B"] ∧
    cacheGet (includeWatcher twoCached (some (Pattern.string "foo"))).cache "B" = none ∧
    (includeWatcher twoCached (some (Pattern.string "foo"))).keys = ["A"] ∧
    (includeWatcher twoCached (some (Pattern.string "foo"))).destroyCalls =
      twoCached.destroyCalls := by
  decide

/-- C5 (amended): for every sweep `pruneCache` and every entry `e` it removes
from the store, `e` is disposed when there is no current vnode or the tag of
`e` differs from the tag of the current vnode `_vnode`, and is not disposed
when it carries the tag of `_vnode` (no other entry sharing its instance). -/
theorem C5_sweep_disposal (s : KeepAlive) (filter : String → Bool) (k : String)
    (e : CacheEntry) (hk : cacheGet s.cache k = some e)
    (hrem : cacheGet (pruneCache s filter).cache k = none) :
    ∃ calls, (pruneCache s filter).destroyCalls = s.destroyCalls ++ calls ∧
      ((s._vnode = none ∨ ∃ cur, s._vnode = some cur ∧ e.tag ≠ cur.tag) →
        e.componentInstance ∈ calls) ∧
      ((∃ cur, s._vnode = some cur ∧ e.tag = cur.tag) →
        (∀ k' e', cacheGet s.cache k' = some e' →
          e'.componentInstance = e.componentInstance → e' = e) →
        e.componentInstance ∉ calls) := by
  have hrej : rejectedBy filter e = true := by
    rw [pruneCache_cache, hk] at hrem
    by_cases hr : rejectedBy filter e = true
    · exact hr
    · simp [sweepSlot, hr] at hrem
  have hin : k ∈ forInKeys s.cache :=
    (mem_forInKeys _ _).2 (mem_names_of_cacheGet _ _ _ hk)
  obtain ⟨calls, hcalls, hmem⟩ :=
    foldl_pruneCacheStep_calls filter s._vnode (forInKeys s.cache) s
  refine ⟨calls, hcalls, ?_, ?_⟩
  · intro hne
    refine (hmem _).2 ⟨k, hin, e, hk, hrej, ?_, rfl⟩
    rcases hne with h | ⟨cur, h, ht⟩
    · simp [notExempt, h]
    · simp [notExempt, h, ht]
  · rintro ⟨cur, hcur, ht⟩ huniq hx
    obtain ⟨k', -, e', hk', -, hne', hx'⟩ := (hmem _).1 hx
    have := huniq k' e' hk' hx'
    subst this
    simp [notExempt, hcur, ht] at hne'

/-- Witness of C5: in `twoCached` with `_vnode` taken away, the sweep for
`"foo"` removes `B` and disposes its instance 11. -/
theorem C5_sweep_disposal_witness :
    ∃ calls, (pruneCache { twoCached with _vnode := none }
        (fun name => «matches» (some (Pattern.string "foo")) name)).destroyCalls =
        twoCached.destroyCalls ++ calls ∧
      ((({ twoCached with _vnode := none } : KeepAlive)._vnode = none ∨
          ∃ cur, ({ twoCached with _vnode := none } : KeepAlive)._vnode = some cur ∧
            (entryOf sampleB).tag ≠ cur.tag) →
        (entryOf sampleB).componentInstance ∈ calls) ∧
      ((∃ cur, ({ twoCached with _vnode := none } : KeepAlive)._vnode = some cur ∧
          (entryOf sampleB).tag = cur.tag) →
        (∀ k' e', cacheGet twoCached.cache k' = some e' →
          e'.componentInstance = (entryOf sampleB).componentInstance → e' = entryOf sampleB) →
        (entryOf sampleB).componentInstance ∉ calls) :=
  C5_sweep_disposal { twoCached with _vnode := none }
    (fun name => «matches» (some (Pattern.string "foo")) name) "B" (entryOf sampleB)
    (by decide) (by decide)

/-- C6, as stated, fails: in `unnamedCached` the include watcher with the new
value `["foo"]` leaves the entry `U` live, and `U` has no name. -/
theorem C6_counterexample :
    cacheGet (includeWatcher unnamedCached (some (Pattern.array ["foo"]))).cache "U" =
      some (entryOf sampleU) ∧
    (entryOf sampleU).name = none ∧
    "U" ∈ (includeWatcher unnamedCached (some (Pattern.array ["foo"]))).keys := by
  decide

/-- C6 (amended): after the include watcher's sweep for the new pattern `P`,
every entry still live was live before, unchanged, and either has no
(non-empty) name or has a name `n` for which `matches(P, n)` is true. -/
theorem C6_include_sweep_keeps (s : KeepAlive) (P : Option Pattern) (k : String)
    (e : CacheEntry) (h : cacheGet (includeWatcher s P).cache k = some e) :
    cacheGet s.cache k = some e ∧
      (truthyStr e.name = false ∨ ∃ n, e.name = some n ∧ «matches» P n = true) := by
  unfold includeWatcher at h
  rw [pruneCache_cache] at h
  cases hget : cacheGet s.cache k with
  | none => simp [hget, sweepSlot] at h
  | some e' =>
    by_cases hr : rejectedBy (fun name => «matches» P name) e' = true
    · simp [hget, sweepSlot, hr] at h
    · simp [hget, sweepSlot, hr] at h
      subst h
      refine ⟨rfl, ?_⟩
      cases hn : e'.name with
      | none => left; rfl
      | some n =>
        simp [rejectedBy, hn] at hr
        by_cases ht : truthyStr (some n) = true
        · right; exact ⟨n, rfl, hr ht⟩
        · left; simpa using ht

/-- Witness of C6: in `unnamedCached` swept for `["foo"]`, the entry `A`
survives and its name `foo` matches. -/
theorem C6_include_sweep_keeps_witness :
    cacheGet unnamedCached.cache "A" = some (entryOf sampleA) ∧
      (truthyStr (entryOf sampleA).name = false ∨
        ∃ n, (entryOf sampleA).name = some n ∧
          «matches» (some (Pattern.array ["foo"])) n = true) :=
  C6_include_sweep_keeps unnamedCached (some (Pattern.array ["foo"])) "A" (entryOf sampleA)
    (by decide)

/-- C7 (cache hit): when the candidate passes the filter and its key has a
live entry, `render` returns the candidate with `componentInstance` set to the
entry's instance and `data.keepAlive` set, leaves the cache as it is, and
stages nothing: `vnodeToCache` and `keyToCache` keep their values. -/
theorem C7_cache_hit_reuses_instance (s : KeepAlive) (slot : Option (List VNode))
    (g : Option (List VNode) → Option VNode) (v : VNode) (co : VNodeComponentOptions)
    (e : CacheEntry) (hg : g slot = some v) (hco : v.componentOptions = some co)
    (hf : filteredOut s (getComponentName (some co)) = false)
    (hhit : cacheGet s.cache (resolveKey v co) = some e) :
    (render s slot g).2 = some
      { v with componentInstance := e.componentInstance
               data := { v.data with keepAlive := true } } ∧
    (render s slot g).1.vnodeToCache = s.vnodeToCache ∧
    (render s slot g).1.keyToCache = s.keyToCache ∧
    (render s slot g).1.cache = s.cache := by
  rw [render_candidate s slot g v co hg hco, renderCacheable_hit s v co e hhit]
  simp [hf]

/-- Witness of C7: rendering `A` again in `twoCached` reuses instance 10. -/
theorem C7_cache_hit_reuses_instance_witness :
    (render twoCached (some [sampleA]) (fun _ => some sampleA)).2 = some
      { sampleA with componentInstance := (entryOf sampleA).componentInstance
                     data := { sampleA.data with keepAlive := true } } ∧
    (render twoCached (some [sampleA]) (fun _ => some sampleA)).1.vnodeToCache =
      twoCached.vnodeToCache ∧
    (render twoCached (some [sampleA]) (fun _ => some sampleA)).1.keyToCache =
      twoCached.keyToCache ∧
    (render twoCached (some [sampleA]) (fun _ => some sampleA)).1.cache = twoCached.cache :=
  C7_cache_hit_reuses_instance twoCached (some [sampleA]) (fun _ => some sampleA) sampleA
    { Ctor := { cid := 1, options := { name := some "foo" } }, tag := some "x" }
    (entryOf sampleA) rfl rfl (by decide) (by decide)

/-- C8 (touch only reorders): on a render hit for the live key `k` in a store
satisfying the key-set invariant, the cache map is unchanged, `keys` has the
same elements, no duplicates and the same length, `k` is its last element,
and the other keys keep their relative order. -/
theorem C8_touch_only_reorders (s : KeepAlive) (slot : Option (List VNode))
    (g : Option (List VNode) → Option VNode) (v : VNode) (co : VNodeComponentOptions)
    (e : CacheEntry) (hinv : KeySetInvariant s) (hg : g slot = some v)
    (hco : v.componentOptions = some co)
    (hf : filteredOut s (getComponentName (some co)) = false)
    (hhit : cacheGet s.cache (resolveKey v co) = some e) :
    (render s slot g).1.cache = s.cache ∧
    (∀ x, x ∈ (render s slot g).1.keys ↔ x ∈ s.keys) ∧
    (render s slot g).1.keys.getLast? = some (resolveKey v co) ∧
    (render s slot g).1.keys.filter (fun x => decide (x ≠ resolveKey v co)) =
      s.keys.filter (fun x => decide (x ≠ resolveKey v co)) ∧
    (render s slot g).1.keys.Nodup ∧
    (render s slot g).1.keys.length = s.keys.length := by
  obtain ⟨hnd, hmem⟩ := hinv
  have hin : resolveKey v co ∈ s.keys := (hmem _).2 (by simp [hhit])
  have hkeys : (render s slot g).1.keys = remove s.keys (resolveKey v co) ++ [resolveKey v co] := by
    rw [render_candidate s slot g v co hg hco, renderCacheable_hit s v co e hhit]
    simp [hf]
  have hcache : (render s slot g).1.cache = s.cache := by
    rw [render_candidate s slot g v co hg hco, renderCacheable_hit s v co e hhit]
    simp [hf]
  rw [hkeys]
  refine ⟨hcache, ?_, ?_, ?_, ?_, ?_⟩
  · intro x
    rw [remove_eq_erase, List.mem_append, hnd.mem_erase_iff, List.mem_singleton]
    constructor
    · rintro (⟨_, hx⟩ | hx)
      · exact hx
      · exact hx ▸ hin
    · intro hx
      by_cases hxe : x = resolveKey v co
      · exact Or.inr hxe
      · exact Or.inl ⟨hxe, hx⟩
  · simp
  · rw [List.filter_append, filter_ne_remove]
    simp
  · rw [remove_eq_erase, List.nodup_append]
    refine ⟨hnd.erase _, List.nodup_singleton _, ?_⟩
    intro a ha hb
    rw [List.mem_singleton] at hb
    subst hb
    exact (hnd.mem_erase_iff.1 ha).1 rfl
  · rw [remove_eq_erase, List.length_append, List.length_erase_of_mem hin]
    have hpos : 0 < s.keys.length := List.length_pos_of_mem hin
    simp
    omega

/-- Witness of C8: rendering `A` again in `twoCached` turns the keys `[A, B]`
into `[B, A]`. -/
theorem C8_touch_only_reorders_witness :
    (render twoCached (some [sampleA]) (fun _ => some sampleA)).1.keys = ["B", "A"] ∧
    ((render twoCached (some [sampleA]) (fun _ => some sampleA)).1.cache = twoCached.cache ∧
    (∀ x, x ∈ (render twoCached (some [sampleA]) (fun _ => some sampleA)).1.keys ↔
      x ∈ twoCached.keys) ∧
    (render twoCached (some [sampleA]) (fun _ => some sampleA)).1.keys.getLast? =
      some (resolveKey sampleA
        { Ctor := { cid := 1, options := { name := some "foo" } }, tag := some "x" }) ∧
    (render twoCached (some [sampleA]) (fun _ => some sampleA)).1.keys.filter
        (fun x => decide (x ≠ resolveKey sampleA
          { Ctor := { cid := 1, options := { name := some "foo" } }, tag := some "x" })) =
      twoCached.keys.filter
        (fun x => decide (x ≠ resolveKey sampleA
          { Ctor := { cid := 1, options := { name := some "foo" } }, tag := some "x" })) ∧
    (render twoCached (some [sampleA]) (fun _ => some sampleA)).1.keys.Nodup ∧
    (render twoCached (some [sampleA]) (fun _ => some sampleA)).1.keys.length =
      twoCached.keys.length) :=
  ⟨by decide,
    C8_touch_only_reorders twoCached (some [sampleA]) (fun _ => some sampleA) sampleA
      { Ctor := { cid := 1, options := { name := some "foo" } }, tag := some "x" }
      (entryOf sampleA) (run_inv _ _ (created_inv none none none)).1 rfl rfl
      (by decide) (by decide)⟩

/-- C9, as stated, fails: with `include = ""` the spec's formula rejects the
candidate `A` (include is present and `matches("", "foo")` is false), while
`render` treats it as cacheable: it stages it and marks it. -/
theorem C9_counterexample :
    emptyInclude.include_.isSome = true ∧
    «matches» emptyInclude.include_ "foo" = false ∧
    getComponentName sampleA.componentOptions = some "foo" ∧
    specCacheable emptyInclude.include_ emptyInclude.exclude
      (getComponentName sampleA.componentOptions) = false ∧
    filteredOut emptyInclude (getComponentName sampleA.componentOptions) = false ∧
    (render emptyInclude (some [sampleA]) (fun _ => some sampleA)).1.vnodeToCache =
      some { sampleA with data := { keepAlive := true } } ∧
    (render emptyInclude (some [sampleA]) (fun _ => some sampleA)).2 =
      some { sampleA with data := { keepAlive := true } } := by
  decide

/-- C9 (amended): for a candidate with component options, `render` goes on to
key resolution and lookup exactly when (include is falsy, that is absent, the
empty string or another falsy value, or `matches(include, name)`) and not
(exclude is present and `matches(exclude, name)`), and passes the candidate
through otherwise; `name` is the declared name or else the tag, and a
candidate lacking a name matches no pattern. -/
theorem C9_filter_decision (s : KeepAlive) (slot : Option (List VNode))
    (g : Option (List VNode) → Option VNode) (v : VNode) (co : VNodeComponentOptions)
    (hg : g slot = some v) (hco : v.componentOptions = some co) :
    render s slot g =
      (if falsyIncludeCacheable s.include_ s.exclude (jsOr co.Ctor.options.name co.tag) = true
       then ((renderCacheable s v co).1, some (renderCacheable s v co).2)
       else (s, some v)) ∧
    (truthyPattern s.include_ = false ↔
      (s.include_ = none ∨ s.include_ = some (Pattern.string "") ∨
        s.include_ = some (Pattern.other false))) ∧
    (∀ p, specMatches p none = false ∧ specMatches p (some "") = false) := by
  refine ⟨?_, ?_, ?_⟩
  · rw [render_candidate s slot g v co hg hco, filteredOut_eq]
    simp only [getComponentName]
    by_cases hfc :
        falsyIncludeCacheable s.include_ s.exclude (jsOr co.Ctor.options.name co.tag) = true
    · simp [hfc]
    · simp [hfc]
  · cases hinc : s.include_ with
    | none => simp [truthyPattern]
    | some pat =>
      cases pat with
      | array items => simp [truthyPattern]
      | string str => simp [truthyPattern]
      | regExp r => simp [truthyPattern]
      | other t => simp [truthyPattern]
  · intro p
    simp [specMatches, truthyStr]

/-- Witness of C9 on `emptyInclude` and the candidate `A`. -/
theorem C9_filter_decision_witness :
    render emptyInclude (some [sampleA]) (fun _ => some sampleA) =
      (if falsyIncludeCacheable emptyInclude.include_ emptyInclude.exclude
          (jsOr (some "foo") (some "x")) = true
       then ((renderCacheable emptyInclude sampleA
              { Ctor := { cid := 1, options := { name := some "foo" } }, tag := some "x" }).1,
             some (renderCacheable emptyInclude sampleA
              { Ctor := { cid := 1, options := { name := some "foo" } }, tag := some "x" }).2)
       else (emptyInclude, some sampleA)) ∧
    (truthyPattern emptyInclude.include_ = false ↔
      (emptyInclude.include_ = none ∨ emptyInclude.include_ = some (Pattern.string "") ∨
        emptyInclude.include_ = some (Pattern.other false))) ∧
    (∀ p, specMatches p none = false ∧ specMatches p (some "") = false) :=
  C9_filter_decision emptyInclude (some [sampleA]) (fun _ => some sampleA) sampleA
    { Ctor := { cid := 1, options := { name := some "foo" } }, tag := some "x" } rfl rfl

/-- C10 (pattern matcher): `matches` on an array is membership; on a string
it is membership in the pieces of the string between its commas (the pieces,
joined by commas, give the string back and contain no comma); on a regular
expression it is the expression's test; on any other value, `undefined`
included, it is false. The function is total: it raises no error. -/
theorem C10_matches_semantics :
    (∀ items n, «matches» (some (Pattern.array items)) n = true ↔ n ∈ items) ∧
    (∀ str n, «matches» (some (Pattern.string str)) n =
      «matches» (some (Pattern.array (splitComma str))) n) ∧
    (∀ str n, «matches» (some (Pattern.string str)) n = true ↔ n ∈ splitComma str) ∧
    (∀ str, [','].intercalate ((splitComma str).map String.data) = str.data ∧
      ∀ seg ∈ splitComma str, ',' ∉ seg.data) ∧
    (∀ r n, «matches» (some (Pattern.regExp r)) n = r.test n) ∧
    (∀ t n, «matches» (some (Pattern.other t)) n = false) ∧
    (∀ n, «matches» none n = false) := by
  refine ⟨?_, ?_, ?_, ?_, ?_, ?_, ?_⟩
  · intro items n
    simp [«matches», indexOf_gt_iff]
  · intro str n
    rfl
  · intro str n
    simp [«matches», indexOf_gt_iff]
  · intro str
    constructor
    · have : (splitComma str).map String.data = splitCommaChars str.data := by
        simp [splitComma, List.map_map, Function.comp_def]
      rw [this, splitCommaChars_intercalate]
    · intro seg hseg
      obtain ⟨cs, hcs, rfl⟩ := List.mem_map.1 hseg
      exact splitCommaChars_no_comma _ cs hcs
  · intro r n; rfl
  · intro t n; rfl
  · intro n; rfl

/-- C11 (prune leaves survivors untouched): in a store satisfying the key-set
invariant, after `pruneCache` the keys are the previous keys with the pruned
ones deleted, in their previous order; every surviving entry is the entry it
was; every `$destroy()` of the sweep is made on the instance of an entry the
sweep removed; and when the filter accepts the name of every live entry the
sweep changes nothing at all. -/
theorem C11_prune_leaves_survivors (s : KeepAlive) (filter : String → Bool)
    (hinv : KeySetInvariant s) :
    (pruneCache s filter).keys =
      s.keys.filter (fun k => (cacheGet (pruneCache s filter).cache k).isSome) ∧
    (∀ k e, cacheGet (pruneCache s filter).cache k = some e → cacheGet s.cache k = some e) ∧
    (∃ calls, (pruneCache s filter).destroyCalls = s.destroyCalls ++ calls ∧
      ∀ x ∈ calls, ∃ k e, cacheGet s.cache k = some e ∧
        cacheGet (pruneCache s filter).cache k = none ∧ e.componentInstance = x) ∧
    ((∀ k e n, cacheGet s.cache k = some e → e.name = some n → filter n = true) →
      pruneCache s filter = s) := by
  obtain ⟨hnd, hmem⟩ := hinv
  refine ⟨?_, ?_, ?_, ?_⟩
  · unfold pruneCache
    rw [foldl_pruneCacheStep_keys filter s._vnode _ s hnd]
    apply List.filter_congr
    intro k hk
    have hlive := (hmem k).1 hk
    have hpc := pruneCache_cache s filter k
    unfold pruneCache at hpc
    rw [hpc]
    cases hget : cacheGet s.cache k with
    | none => simp [hget] at hlive
    | some e =>
      have hin : k ∈ forInKeys s.cache :=
        (mem_forInKeys _ _).2 (mem_names_of_cacheGet _ _ _ hget)
      by_cases hr : rejectedBy filter e = true
      · simp [hin, isRejected, sweepSlot, hr]
      · simp [hin, isRejected, sweepSlot, hr]
  · intro k e h
    rw [pruneCache_cache] at h
    cases hget : cacheGet s.cache k with
    | none => simp [hget, sweepSlot] at h
    | some e' =>
      by_cases hr : rejectedBy filter e' = true
      · simp [hget, sweepSlot, hr] at h
      · simp [hget, sweepSlot, hr] at h
        rw [h]
  · obtain ⟨calls, hcalls, hmemc⟩ :=
      foldl_pruneCacheStep_calls filter s._vnode (forInKeys s.cache) s
    refine ⟨calls, hcalls, ?_⟩
    intro x hx
    obtain ⟨k, -, e, hget, hr, -, hxe⟩ := (hmemc x).1 hx
    refine ⟨k, e, hget, ?_, hxe⟩
    rw [pruneCache_cache, hget]
    simp [sweepSlot, hr]
  · intro hacc
    unfold pruneCache
    apply foldl_fixed
    intro a _
    rw [pruneCacheStep_eq]
    cases hget : cacheGet s.cache a with
    | none => rfl
    | some e =>
      have hr : rejectedBy filter e = false := by
        unfold rejectedBy
        cases hn : e.name with
        | none => rfl
        | some n => simp [hacc a e n hget hn]
      simp [hr]

/-- Witness of C11, scenario 5: with `foo` (key `A`) and `bar` (key `B`)
cached and no current vnode, the sweep for `include = "bar"` leaves `[B]`. -/
theorem C11_prune_leaves_survivors_witness :
    (pruneCache { twoCached with _vnode := none }
        (fun name => «matches» (some (Pattern.string "bar")) name)).keys = ["B"] ∧
    (pruneCache { twoCached with _vnode := none }
        (fun name => «matches» (some (Pattern.string "bar")) name)).destroyCalls = [10] ∧
    ((pruneCache { twoCached with _vnode := none }
        (fun name => «matches» (some (Pattern.string "bar")) name)).keys =
      ({ twoCached with _vnode := none } : KeepAlive).keys.filter (fun k =>
        (cacheGet (pruneCache { twoCached with _vnode := none }
          (fun name => «matches» (some (Pattern.string "bar")) name)).cache k).isSome) ∧
    (∀ k e, cacheGet (pruneCache { twoCached with _vnode := none }
        (fun name => «matches» (some (Pattern.string "bar")) name)).cache k = some e →
      cacheGet ({ twoCached with _vnode := none } : KeepAlive).cache k = some e) ∧
    (∃ calls, (pruneCache { twoCached with _vnode := none }
        (fun name => «matches» (some (Pattern.string "bar")) name)).destroyCalls =
        ({ twoCached with _vnode := none } : KeepAlive).destroyCalls ++ calls ∧
      ∀ x ∈ calls, ∃ k e,
        cacheGet ({ twoCached with _vnode := none } : KeepAlive).cache k = some e ∧
        cacheGet (pruneCache { twoCached with _vnode := none }
          (fun name => «matches» (some (Pattern.string "bar")) name)).cache k = none ∧
        e.componentInstance = x) ∧
    ((∀ k e n, cacheGet ({ twoCached with _vnode := none } : KeepAlive).cache k = some e →
        e.name = some n → «matches» (some (Pattern.string "bar")) n = true) →
      pruneCache { twoCached with _vnode := none }
        (fun name => «matches» (some (Pattern.string "bar")) name) =
        { twoCached with _vnode := none })) :=
  ⟨by decide, by decide,
    C11_prune_leaves_survivors { twoCached with _vnode := none }
      (fun name => «matches» (some (Pattern.string "bar")) name)
      (keySet_congr twoCached _ rfl rfl (run_inv _ _ (created_inv none none none)).1)⟩

/-- C12 (teardown): in a store satisfying the key-set invariant, after the
`destroyed` hook `keys` is empty and every cache slot reads null; every entry
that was live is disposed during the hook, whatever its tag and whatever
`_vnode` is, and exactly once when no other entry shares its instance. -/
theorem C12_teardown_evicts_all (s : KeepAlive) (hinv : KeySetInvariant s) :
    (destroyed s).keys = [] ∧
    (∀ k, cacheGet (destroyed s).cache k = none) ∧
    (∃ calls, (destroyed s).destroyCalls = s.destroyCalls ++ calls ∧
      (∀ k e, cacheGet s.cache k = some e → e.componentInstance ∈ calls) ∧
      (∀ k e, cacheGet s.cache k = some e →
        (∀ k' e', cacheGet s.cache k' = some e' →
          e'.componentInstance = e.componentInstance → k' = k) →
        List.count e.componentInstance calls = 1)) := by
  obtain ⟨hnd, hmem⟩ := hinv
  have hlive : ∀ k e, cacheGet s.cache k = some e → k ∈ forInKeys s.cache := fun k e h =>
    (mem_forInKeys _ _).2 (mem_names_of_cacheGet _ _ _ h)
  refine ⟨?_, ?_, ?_⟩
  · unfold destroyed
    rw [foldl_teardown_keys _ s hnd, List.filter_eq_nil_iff]
    intro k hk
    have h1 := (hmem k).1 hk
    cases hget : cacheGet s.cache k with
    | none => simp [hget] at h1
    | some e => simp [hlive k e hget]
  · intro k
    unfold destroyed
    rw [foldl_teardown_cache]
    by_cases hk : k ∈ forInKeys s.cache
    · simp [hk]
    · cases hget : cacheGet s.cache k with
      | none => simp [hk]
      | some e => exact absurd (hlive k e hget) hk
  · obtain ⟨calls, hcalls, hmemc, hcount⟩ := foldl_teardown_calls (forInKeys s.cache) s
    refine ⟨calls, hcalls, ?_, ?_⟩
    · intro k e hget
      exact (hmemc _).2 ⟨k, hlive k e hget, e, hget, rfl⟩
    · intro k e hget huniq
      exact hcount k e (hlive k e hget) hget huniq

/-- Witness of C12, scenario 6: `twoCached` holds the tags `x` and `y`, and
`_vnode` carries the tag `y`; teardown disposes both instances. -/
theorem C12_teardown_evicts_all_witness :
    (destroyed twoCached).destroyCalls = [10, 11] ∧
    ((destroyed twoCached).keys = [] ∧
    (∀ k, cacheGet (destroyed twoCached).cache k = none) ∧
    (∃ calls, (destroyed twoCached).destroyCalls = twoCached.destroyCalls ++ calls ∧
      (∀ k e, cacheGet twoCached.cache k = some e → e.componentInstance ∈ calls) ∧
      (∀ k e, cacheGet twoCached.cache k = some e →
        (∀ k' e', cacheGet twoCached.cache k' = some e' →
          e'.componentInstance = e.componentInstance → k' = k) →
        List.count e.componentInstance calls = 1))) :=
  ⟨by decide,
    C12_teardown_evicts_all twoCached (run_inv _ _ (created_inv none none none)).1⟩

/-- C13 (commit consumes the pending insertion once): without a pending
insertion `cacheVNode` changes nothing (cache, keys and disposals included);
after `cacheVNode` there is no pending insertion; hence a second `cacheVNode`
in a row changes nothing. -/
theorem C13_commit_once (s : KeepAlive) :
    (s.vnodeToCache = none → cacheVNode s = s) ∧
    (cacheVNode s).vnodeToCache = none ∧
    cacheVNode (cacheVNode s) = cacheVNode s := by
  have h2 : (cacheVNode s).vnodeToCache = none := by
    cases hv : s.vnodeToCache with
    | none => rw [cacheVNode_none s hv]; exact hv
    | some v => simp [cacheVNode, hv]
  exact ⟨cacheVNode_none s, h2, cacheVNode_none _ h2⟩

/-- C14 (pass-through): when the filter rejects the candidate, `render`
returns the candidate as it is and leaves the whole state, cache, keys and the
pending insertion included, as it was. -/
theorem C14_pass_through (s : KeepAlive) (slot : Option (List VNode))
    (g : Option (List VNode) → Option VNode) (v : VNode) (co : VNodeComponentOptions)
    (hg : g slot = some v) (hco : v.componentOptions = some co)
    (hf : filteredOut s (getComponentName (some co)) = true) :
    render s slot g = (s, some v) := by
  rw [render_candidate s slot g v co hg hco]
  simp [hf]

/-- Witness of C14, scenarios 3 and 4: `include = "foo,bar"` with the name
`baz`, and `exclude = /^Foo/` with the name `Foo1`. -/
theorem C14_pass_through_witness :
    render includeFooBar (some [sampleC]) (fun _ => some sampleC) =
      (includeFooBar, some sampleC) ∧
    render excludeFoo (some [sampleFoo1]) (fun _ => some sampleFoo1) =
      (excludeFoo, some sampleFoo1) :=
  ⟨C14_pass_through includeFooBar (some [sampleC]) (fun _ => some sampleC) sampleC
      { Ctor := { cid := 3, options := { name := some "baz" } }, tag := some "z" }
      rfl rfl (by decide),
   C14_pass_through excludeFoo (some [sampleFoo1]) (fun _ => some sampleFoo1) sampleFoo1
      { Ctor := { cid := 5, options := { name := some "Foo1" } }, tag := some "w" }
      rfl rfl (by decide)⟩

/-- C15 (unparseable max means unbounded): when `max` is absent, or a string
on which `parseInt` yields `NaN`, `cacheVNode` with a pending insertion evicts
nothing and disposes nothing: `keys` is the previous keys with the committed
key appended, and the cache is the previous cache with the new entry. -/
theorem C15_unparseable_max_unbounded (s : KeepAlive) (v : VNode) (k : String)
    (hmax : s.max = none ∨
      ∃ str, s.max = some (MaxProp.string str) ∧ parseInt (MaxProp.string str) = none)
    (hv : s.vnodeToCache = some v) (hk : s.keyToCache = some k) :
    (cacheVNode s).keys = s.keys ++ [k] ∧
    (cacheVNode s).destroyCalls = s.destroyCalls ∧
    (cacheVNode s).cache = cacheSet s.cache k (some (entryOf v)) := by
  have hex : exceedsMax s.max (s.keys.length + 1) = false := by
    rcases hmax with h | ⟨str, h, hp⟩
    · simp [h, exceedsMax]
    · simp [h, exceedsMax, hp]
  rw [cacheVNode_noEvict s v k hv hk hex]
  exact ⟨rfl, rfl, rfl⟩

/-- Witness of C15: scenario 1 with `max = "abc"` keeps `A`, `B` and `C`. -/
theorem C15_unparseable_max_unbounded_witness :
    (cacheVNode unparseableMax).keys = ["A", "B", "C"] ∧
    ((cacheVNode unparseableMax).keys = unparseableMax.keys ++ ["C"] ∧
    (cacheVNode unparseableMax).destroyCalls = unparseableMax.destroyCalls ∧
    (cacheVNode unparseableMax).cache =
      cacheSet unparseableMax.cache "C"
        (some (entryOf { sampleC with data := { keepAlive := true } }))) :=
  ⟨by decide,
    C15_unparseable_max_unbounded unparseableMax
      { sampleC with data := { keepAlive := true } } "C"
      (Or.inr ⟨"abc", rfl, by decide⟩) rfl rfl⟩

/-- C16 (key resolution): the cache key is the candidate's own key when it
has one; otherwise it is the decimal constructor id, followed by `::` and the
tag when there is a tag. The derivation is injective: two candidates without
own keys get the same key if and only if they have the same constructor id
and the same tag (a missing and an empty tag both being no tag), so one
constructor under two different tags yields two different keys. -/
theorem C16_key_resolution :
    (∀ (v : VNode) (co : VNodeComponentOptions) (key : String),
      v.key = some key → resolveKey v co = key) ∧
    (∀ (v : VNode) (co : VNodeComponentOptions) (t : String),
      v.key = none → co.tag = some t → t ≠ "" →
      resolveKey v co = decimal co.Ctor.cid ++ "::" ++ t) ∧
    (∀ (v : VNode) (co : VNodeComponentOptions),
      v.key = none → effectiveTag co = none → resolveKey v co = decimal co.Ctor.cid) ∧
    (∀ (v1 v2 : VNode) (co1 co2 : VNodeComponentOptions),
      v1.key = none → v2.key = none →
      (resolveKey v1 co1 = resolveKey v2 co2 ↔
        co1.Ctor.cid = co2.Ctor.cid ∧ effectiveTag co1 = effectiveTag co2)) ∧
    (∀ (v1 v2 : VNode) (co1 co2 : VNodeComponentOptions),
      v1.key = none → v2.key = none → co1.tag ≠ some "" → co2.tag ≠ some "" →
      (resolveKey v1 co1 = resolveKey v2 co2 ↔
        co1.Ctor.cid = co2.Ctor.cid ∧ co1.tag = co2.tag)) ∧
    (∀ (v1 v2 : VNode) (co1 co2 : VNodeComponentOptions) (t1 t2 : String),
      v1.key = none → v2.key = none → co1.Ctor = co2.Ctor →
      co1.tag = some t1 → co2.tag = some t2 → t1 ≠ "" → t2 ≠ "" → t1 ≠ t2 →
      resolveKey v1 co1 ≠ resolveKey v2 co2) := by
  have heff : ∀ co : VNodeComponentOptions, co.tag ≠ some "" → effectiveTag co = co.tag := by
    intro co hne
    unfold effectiveTag
    cases htag : co.tag with
    | none => simp [truthyStr]
    | some t =>
      have : t ≠ "" := fun h => hne (by rw [htag, h])
      simp [truthyStr, this]
  refine ⟨?_, ?_, ?_, ?_, ?_, ?_⟩
  · intro v co key hv
    simp [resolveKey, hv]
  · intro v co t hv ht hne
    simp [resolveKey, hv, ht, truthyStr, hne, String.append_assoc]
  · intro v co hv he
    apply String.ext
    rw [resolveKey_derived v co hv]
    simp [keySuffixChars, he]
  · intro v1 v2 co1 co2 h1 h2
    exact resolveKey_eq_iff v1 v2 co1 co2 h1 h2
  · intro v1 v2 co1 co2 h1 h2 hn1 hn2
    rw [resolveKey_eq_iff v1 v2 co1 co2 h1 h2, heff co1 hn1, heff co2 hn2]
  · intro v1 v2 co1 co2 t1 t2 h1 h2 hc ht1 ht2 hn1 hn2 hne heq
    have hn1' : co1.tag ≠ some "" := by rw [ht1]; intro h; exact hn1 (Option.some.inj h)
    have hn2' : co2.tag ≠ some "" := by rw [ht2]; intro h; exact hn2 (Option.some.inj h)
    have := (resolveKey_eq_iff v1 v2 co1 co2 h1 h2).1 heq
    rw [heff co1 hn1', heff co2 hn2', ht1, ht2] at this
    exact hne (Option.some.inj this.2)

/-- C17 (no double dispose): in every run from a freshly created keep-alive
in which the committed entries carry pairwise distinct instances, no instance
is disposed more than once; and `pruneCacheEntry` on a key whose slot is
already null makes no `$destroy()` call. -/
theorem C17_no_double_dispose (inc exc : Option Pattern) (max : Option MaxProp)
    (ops : List Op) (hdistinct : (commitsOf (created inc exc max) ops).Nodup) :
    (run (created inc exc max) ops).destroyCalls.Nodup ∧
    (∀ x, List.count x (run (created inc exc max) ops).destroyCalls ≤ 1) ∧
    (∀ (s : KeepAlive) (key : String) (current : Option VNode),
      cacheGet s.cache key = none →
      (pruneCacheEntry s key current).destroyCalls = s.destroyCalls) := by
  have h := run_disposalInv ops (created inc exc max) [] (created_inv inc exc max)
    (created_disposalInv inc exc max) (by simpa using hdistinct)
  refine ⟨h.1, fun x => List.nodup_iff_count_le_one.1 h.1 x, ?_⟩
  intro s key current hnone
  simp [pruneCacheEntry, destroyCallsOf, hnone]

/-- Witness of C17: scenario 1 followed by two teardowns disposes the
instances 10, 11 and 12 once each. -/
theorem C17_no_double_dispose_witness :
    (run (created none none (some (MaxProp.number 2)))
      (cycle sampleA ++ cycle sampleB ++ cycle sampleC ++
        [Op.destroyed, Op.destroyed])).destroyCalls = [10, 11, 12] ∧
    ((run (created none none (some (MaxProp.number 2)))
      (cycle sampleA ++ cycle sampleB ++ cycle sampleC ++
        [Op.destroyed, Op.destroyed])).destroyCalls.Nodup ∧
    (∀ x, List.count x (run (created none none (some (MaxProp.number 2)))
      (cycle sampleA ++ cycle sampleB ++ cycle sampleC ++
        [Op.destroyed, Op.destroyed])).destroyCalls ≤ 1) ∧
    (∀ (s : KeepAlive) (key : String) (current : Option VNode),
      cacheGet s.cache key = none →
      (pruneCacheEntry s key current).destroyCalls = s.destroyCalls)) :=
  ⟨by decide,
    C17_no_double_dispose none none (some (MaxProp.number 2))
      (cycle sampleA ++ cycle sampleB ++ cycle sampleC ++ [Op.destroyed, Op.destroyed])
      (by decide)⟩

/-! ## `Vue.use` -/

theorem pluginIndexOf_ge (l : List Plugin) (x : Plugin) : -1 ≤ pluginIndexOf l x := by
  induction l with
  | nil => simp [pluginIndexOf]
  | cons y ys ih =>
    unfold pluginIndexOf
    split
    · norm_num
    · simp only
      split
      · norm_num
      · omega

theorem pluginIndexOf_gt_iff (l : List Plugin) (x : Plugin) :
    pluginIndexOf l x > -1 ↔ x ∈ l := by
  induction l with
  | nil => simp [pluginIndexOf]
  | cons y ys ih =>
    have hge := pluginIndexOf_ge ys x
    unfold pluginIndexOf
    by_cases h : y = x
    · simp [h]
    · have hne : ¬ x = y := fun hxy => h hxy.symm
      simp only [h, if_false, List.mem_cons, hne, false_or]
      rw [← ih]
      split
      · omega
      · omega

theorem use_of_mem (r : GlobalAPI) (p : Plugin) (extra : List Nat)
    (h : p ∈ installedPlugins r) : use r p extra = r := by
  have hidx : pluginIndexOf (r._installedPlugins.getD []) p > -1 :=
    (pluginIndexOf_gt_iff _ _).2 h
  obtain ⟨ip, calls⟩ := r
  cases ip with
  | none => simp [installedPlugins] at h
  | some l => simp [use] at hidx ⊢; exact hidx

theorem use_of_not_mem (r : GlobalAPI) (p : Plugin) (extra : List Nat)
    (h : p ∉ installedPlugins r) :
    installedPlugins (use r p extra) = installedPlugins r ++ [p] ∧
    (use r p extra).pluginCalls.map PluginCall.plugin =
      r.pluginCalls.map PluginCall.plugin ++ (if p.invocable then [p] else []) := by
  have hidx : ¬ pluginIndexOf (r._installedPlugins.getD []) p > -1 := fun hgt =>
    h ((pluginIndexOf_gt_iff _ _).1 hgt)
  unfold use
  simp only [hidx, if_false]
  refine ⟨rfl, ?_⟩
  cases h1 : p.installIsFunction <;> cases h2 : p.isFunction <;>
    simp [Plugin.invocable, h1, h2, PluginCall.plugin]

theorem useAll_installed (uses : List (Plugin × List Nat)) (r : GlobalAPI) :
    installedPlugins (useAll r uses) =
      installedPlugins r ++
        (firstUses (uses.map Prod.fst)).filter (fun q => decide (q ∉ installedPlugins r)) ∧
    (useAll r uses).pluginCalls.map PluginCall.plugin =
      r.pluginCalls.map PluginCall.plugin ++
        ((firstUses (uses.map Prod.fst)).filter
          (fun q => decide (q ∉ installedPlugins r))).filter Plugin.invocable := by
  induction uses generalizing r with
  | nil => simp [useAll, firstUses]
  | cons u rest ih =>
    obtain ⟨p, extra⟩ := u
    show installedPlugins (useAll (use r p extra) rest) = _ ∧
      (useAll (use r p extra) rest).pluginCalls.map PluginCall.plugin = _
    by_cases hp : p ∈ installedPlugins r
    · rw [use_of_mem r p extra hp]
      obtain ⟨ih1, ih2⟩ := ih r
      have hfil : (firstUses (List.map Prod.fst ((p, extra) :: rest))).filter
            (fun q => decide (q ∉ installedPlugins r)) =
          (firstUses (List.map Prod.fst rest)).filter
            (fun q => decide (q ∉ installedPlugins r)) := by
        simp only [List.map_cons, firstUses, List.filter_cons, hp, not_true_eq_false,
          decide_False, List.filter_filter]
        simp only [Bool.false_eq_true, if_false]
        apply List.filter_congr
        intro q _
        by_cases hq : q ∈ installedPlugins r
        · simp [hq]
        · have : q ≠ p := fun h => hq (h ▸ hp)
          simp [hq, this]
      rw [hfil]
      exact ⟨ih1, ih2⟩
    · obtain ⟨h1, h2⟩ := use_of_not_mem r p extra hp
      obtain ⟨ih1, ih2⟩ := ih (use r p extra)
      have hfil : (firstUses (List.map Prod.fst ((p, extra) :: rest))).filter
            (fun q => decide (q ∉ installedPlugins r)) =
          p :: (firstUses (List.map Prod.fst rest)).filter
            (fun q => decide (q ∉ installedPlugins r ++ [p])) := by
        simp only [List.map_cons, firstUses, List.filter_cons, hp, not_false_eq_true,
          decide_True, if_true, List.filter_filter]
        congr 1
        apply List.filter_congr
        intro q _
        by_cases hq : q ∈ installedPlugins r
        · simp [hq]
        · by_cases hqp : q = p
          · simp [hqp]
          · simp [hq, hqp]
      rw [hfil, ih1, ih2, h1, h2]
      refine ⟨by simp, ?_⟩
      by_cases hinv : p.invocable = true
      · simp [hinv, List.filter_cons]
      · simp [hinv, List.filter_cons]

theorem firstUses_mem (l : List Plugin) (p : Plugin) : p ∈ firstUses l ↔ p ∈ l := by
  induction l with
  | nil => simp [firstUses]
  | cons q qs ih =>
    simp only [firstUses, List.mem_cons, List.mem_filter, ih]
    by_cases h : p = q
    · simp [h]
    · simp [h]

theorem firstUses_nodup (l : List Plugin) : (firstUses l).Nodup := by
  induction l with
  | nil => simp [firstUses]
  | cons q qs ih =>
    simp only [firstUses, List.nodup_cons, List.mem_filter]
    exact ⟨by simp, ih.filter _⟩

/-- C18 (`Vue.use` prevents duplicate registration): for a plugin already in
the installed-plugins list, `use` returns the receiver as it is, making no
call and leaving the list alone; hence after any sequence of `use` calls on a
fresh receiver the list is the plugins of the sequence in first-use order,
without duplicates, and the calls made are one for each plugin of that list
that has an `install` function or is a function, in the same order. -/
theorem C18_use_prevents_duplicates :
    (∀ (r : GlobalAPI) (p : Plugin) (extra : List Nat),
      p ∈ installedPlugins r → use r p extra = r) ∧
    (∀ uses : List (Plugin × List Nat),
      installedPlugins (useAll freshGlobalAPI uses) = firstUses (uses.map Prod.fst) ∧
      (installedPlugins (useAll freshGlobalAPI uses)).Nodup ∧
      (∀ p, p ∈ installedPlugins (useAll freshGlobalAPI uses) ↔ p ∈ uses.map Prod.fst) ∧
      (useAll freshGlobalAPI uses).pluginCalls.map PluginCall.plugin =
        (firstUses (uses.map Prod.fst)).filter Plugin.invocable ∧
      ((useAll freshGlobalAPI uses).pluginCalls.map PluginCall.plugin).Nodup) := by
  refine ⟨use_of_mem, ?_⟩
  intro uses
  obtain ⟨h1, h2⟩ := useAll_installed uses freshGlobalAPI
  have hfresh : installedPlugins freshGlobalAPI = [] := rfl
  have hcalls : freshGlobalAPI.pluginCalls = [] := rfl
  simp only [hfresh, hcalls, List.nil_append, List.not_mem_nil, not_false_eq_true,
    decide_True, List.filter_true, List.map_nil] at h1 h2
  refine ⟨h1, ?_, ?_, h2, ?_⟩
  · rw [h1]; exact firstUses_nodup _
  · intro p; rw [h1]; exact firstUses_mem _ p
  · rw [h2]; exact (firstUses_nodup _).filter _

/-! ## The event methods -/

theorem eventsGet_eventsSet_self (m : EventsMap) (e : String) (v : Option (List Fn)) :
    eventsGet (eventsSet m e v) e = v := by
  induction m with
  | nil => simp [eventsSet, eventsGet]
  | cons p rest ih =>
    obtain ⟨k0, v0⟩ := p
    by_cases h : k0 = e
    · simp [eventsSet, eventsGet, h]
    · simp [eventsSet, eventsGet, h, ih]

theorem eventsGet_eventsSet_ne (m : EventsMap) (e e' : String) (v : Option (List Fn))
    (hne : e' ≠ e) : eventsGet (eventsSet m e v) e' = eventsGet m e' := by
  induction m with
  | nil =>
    have : e ≠ e' := fun h => hne h.symm
    simp [eventsSet, eventsGet, this]
  | cons p rest ih =>
    obtain ⟨k0, v0⟩ := p
    by_cases h : k0 = e
    · subst h
      have : k0 ≠ e' := fun h => hne h.symm
      simp [eventsSet, eventsGet, this]
    · by_cases h2 : k0 = e'
      · subst h2
        simp [eventsSet, eventsGet, h]
      · simp [eventsSet, eventsGet, h, h2, ih]

theorem eventsSet_same (m : EventsMap) (e : String) (cbs : List Fn)
    (h : eventsGet m e = some cbs) : eventsSet m e (some cbs) = m := by
  induction m with
  | nil => simp [eventsGet] at h
  | cons p rest ih =>
    obtain ⟨k0, v0⟩ := p
    by_cases hk : k0 = e
    · simp only [eventsGet, hk, if_true] at h
      simp [eventsSet, hk, h]
    · simp only [eventsGet, hk, if_false] at h
      simp [eventsSet, hk, ih h]

theorem removeFirstMatch_none (fn : Fn) (l : List Fn)
    (h : ∀ c ∈ l, handlerMatches c fn = false) : removeFirstMatch fn l = l := by
  induction l with
  | nil => rfl
  | cons c cs ih =>
    have hc := h c (List.mem_cons_self _ _)
    simp [removeFirstMatch, hc, ih (fun x hx => h x (List.mem_cons_of_mem _ hx))]

theorem removeFirstMatch_split (fn : Fn) (pre post : List Fn) (cb : Fn)
    (hpre : ∀ c ∈ pre, handlerMatches c fn = false) (hcb : handlerMatches cb fn = true) :
    removeFirstMatch fn (pre ++ cb :: post) = pre ++ post := by
  induction pre with
  | nil => simp [removeFirstMatch, hcb]
  | cons c cs ih =>
    have hc := hpre c (List.mem_cons_self _ _)
    simp [removeFirstMatch, hc, ih (fun x hx => hpre x (List.mem_cons_of_mem _ hx))]

theorem first_match_split (fn : Fn) (l : List Fn)
    (h : ∃ c ∈ l, handlerMatches c fn = true) :
    ∃ pre cb post, l = pre ++ cb :: post ∧ handlerMatches cb fn = true ∧
      ∀ c ∈ pre, handlerMatches c fn = false := by
  induction l with
  | nil => simp at h
  | cons c cs ih =>
    by_cases hc : handlerMatches c fn = true
    · exact ⟨[], c, cs, rfl, hc, by simp⟩
    · obtain ⟨x, hx, hm⟩ := h
      have hx' : x ∈ cs := by
        rcases List.mem_cons.1 hx with h1 | h1
        · rw [h1] at hm; exact absurd hm hc
        · exact h1
      obtain ⟨pre, cb, post, hl, hcb, hpre⟩ := ih ⟨x, hx', hm⟩
      refine ⟨c :: pre, cb, post, by simp [hl], hcb, ?_⟩
      intro y hy
      rcases List.mem_cons.1 hy with h1 | h1
      · rw [h1]; simpa using hc
      · exact hpre y h1

theorem last_match_split (fn : Fn) (l : List Fn)
    (h : ∃ c ∈ l, handlerMatches c fn = true) :
    ∃ pre cb post, l = pre ++ cb :: post ∧ handlerMatches cb fn = true ∧
      ∀ c ∈ post, handlerMatches c fn = false := by
  obtain ⟨x, hx, hm⟩ := h
  obtain ⟨pre, cb, post, hl, hcb, hpre⟩ :=
    first_match_split fn l.reverse ⟨x, List.mem_reverse.2 hx, hm⟩
  refine ⟨post.reverse, cb, pre.reverse, ?_, hcb, fun c hc => hpre c (List.mem_reverse.1 hc)⟩
  have := congrArg List.reverse hl
  simpa using this

/-- C19 (`$off(event, fn)` removes one specific handler): on an event with a
handler list, `$off(event, fn)` takes out exactly the last handler of the list
(the most recently added) that is `fn` or a `$once` closure whose `fn` is
`fn`, keeping the others in order; it changes nothing at all when no handler
matches; and it leaves the handlers of every other event, and the rest of the
instance, as they were. -/
theorem C19_off_removes_one_handler (vm : EventsVM) (event : String) (cbs : List Fn)
    (fn : Fn) (hcbs : eventsGet vm._events event = some cbs) :
    (∀ pre cb post, cbs = pre ++ cb :: post → handlerMatches cb fn = true →
      (∀ c ∈ post, handlerMatches c fn = false) →
      eventsGet («$off» vm (OffArgs.event (EventArg.one event) (some fn)))._events event =
        some (pre ++ post)) ∧
    ((∃ c ∈ cbs, handlerMatches c fn = true) →
      ∃ pre cb post, cbs = pre ++ cb :: post ∧ handlerMatches cb fn = true ∧
        (∀ c ∈ post, handlerMatches c fn = false) ∧
        eventsGet («$off» vm (OffArgs.event (EventArg.one event) (some fn)))._events event =
          some (pre ++ post)) ∧
    ((∀ c ∈ cbs, handlerMatches c fn = false) →
      «$off» vm (OffArgs.event (EventArg.one event) (some fn)) = vm) ∧
    (∀ e, e ≠ event →
      eventsGet («$off» vm (OffArgs.event (EventArg.one event) (some fn)))._events e =
        eventsGet vm._events e) ∧
    («$off» vm (OffArgs.event (EventArg.one event) (some fn)))._hasHookEvent =
      vm._hasHookEvent ∧
    («$off» vm (OffArgs.event (EventArg.one event) (some fn))).invoked = vm.invoked ∧
    (∀ cb, handlerMatches cb fn = true ↔ cb = fn ∨ ∃ id ev, cb = Fn.onceWrapper id ev fn) := by
  have hoff : «$off» vm (OffArgs.event (EventArg.one event) (some fn)) =
      { vm with _events := eventsSet vm._events event (some (spliceLastMatch cbs fn)) } := by
    simp [«$off», offOne, hcbs]
  have hsplit : ∀ pre cb post, cbs = pre ++ cb :: post → handlerMatches cb fn = true →
      (∀ c ∈ post, handlerMatches c fn = false) → spliceLastMatch cbs fn = pre ++ post := by
    intro pre cb post hl hcb hpost
    unfold spliceLastMatch
    rw [hl]
    have hrev : (pre ++ cb :: post).reverse = post.reverse ++ cb :: pre.reverse := by simp
    rw [hrev, removeFirstMatch_split fn post.reverse pre.reverse cb
      (fun c hc => hpost c (List.mem_reverse.1 hc)) hcb]
    simp
  rw [hoff]
  refine ⟨?_, ?_, ?_, ?_, rfl, rfl, ?_⟩
  · intro pre cb post hl hcb hpost
    simp only [eventsGet_eventsSet_self, hsplit pre cb post hl hcb hpost]
  · intro hex
    obtain ⟨pre, cb, post, hl, hcb, hpost⟩ := last_match_split fn cbs hex
    exact ⟨pre, cb, post, hl, hcb, hpost, by
      simp only [eventsGet_eventsSet_self, hsplit pre cb post hl hcb hpost]⟩
  · intro hnone
    have : spliceLastMatch cbs fn = cbs := by
      unfold spliceLastMatch
      rw [removeFirstMatch_none fn _ (fun c hc => hnone c (List.mem_reverse.1 hc))]
      simp
    rw [this, eventsSet_same _ _ _ hcbs]
  · intro e he
    exact eventsGet_eventsSet_ne _ _ _ _ he
  · intro cb
    cases cb with
    | user id body => simp [handlerMatches]
    | onceWrapper id ev f =>
      simp only [handlerMatches, Bool.or_eq_true, decide_eq_true_eq]
      constructor
      · rintro (h | h)
        · exact Or.inl h
        · exact Or.inr ⟨id, ev, by rw [h]⟩
      · rintro (h | ⟨id', ev', h⟩)
        · exact Or.inl h
        · right
          injection h with _ _ h3

/-- Witness of C19: on `onceTwice`, `$off("e", plainHandler)` takes out the
second closure, whose `fn` is `plainHandler`, and keeps the first. -/
theorem C19_off_removes_one_handler_witness :
    eventsGet («$off» onceTwice
        (OffArgs.event (EventArg.one "e") (some plainHandler)))._events "e" =
      some [Fn.onceWrapper 0 "e" reEmitter] ∧
    ((∀ pre cb post,
      [Fn.onceWrapper 0 "e" reEmitter, Fn.onceWrapper 1 "e" plainHandler] =
        pre ++ cb :: post →
      handlerMatches cb plainHandler = true →
      (∀ c ∈ post, handlerMatches c plainHandler = false) →
      eventsGet («$off» onceTwice
          (OffArgs.event (EventArg.one "e") (some plainHandler)))._events "e" =
        some (pre ++ post)) ∧
    ((∃ c ∈ [Fn.onceWrapper 0 "e" reEmitter, Fn.onceWrapper 1 "e" plainHandler],
        handlerMatches c plainHandler = true) →
      ∃ pre cb post,
        [Fn.onceWrapper 0 "e" reEmitter, Fn.onceWrapper 1 "e" plainHandler] =
          pre ++ cb :: post ∧
        handlerMatches cb plainHandler = true ∧
        (∀ c ∈ post, handlerMatches c plainHandler = false) ∧
        eventsGet («$off» onceTwice
            (OffArgs.event (EventArg.one "e") (some plainHandler)))._events "e" =
          some (pre ++ post)) ∧
    ((∀ c ∈ [Fn.onceWrapper 0 "e" reEmitter, Fn.onceWrapper 1 "e" plainHandler],
        handlerMatches c plainHandler = false) →
      «$off» onceTwice (OffArgs.event (EventArg.one "e") (some plainHandler)) =
        onceTwice) ∧
    (∀ e, e ≠ "e" →
      eventsGet («$off» onceTwice
          (OffArgs.event (EventArg.one "e") (some plainHandler)))._events e =
        eventsGet onceTwice._events e) ∧
    («$off» onceTwice
        (OffArgs.event (EventArg.one "e") (some plainHandler)))._hasHookEvent =
      onceTwice._hasHookEvent ∧
    («$off» onceTwice (OffArgs.event (EventArg.one "e") (some plainHandler))).invoked =
      onceTwice.invoked ∧
    (∀ cb, handlerMatches cb plainHandler = true ↔
      cb = plainHandler ∨ ∃ id ev, cb = Fn.onceWrapper id ev plainHandler)) :=
  ⟨by decide,
    C19_off_removes_one_handler onceTwice "e"
      [Fn.onceWrapper 0 "e" reEmitter, Fn.onceWrapper 1 "e" plainHandler] plainHandler
      (by decide)⟩

/-- C20, at the failing input: after `$once("e", reEmitter)` and
`$once("e", plainHandler)`, one `$emit("e", 1)` runs to its end and invokes
`plainHandler` (identity 2) twice, first with the argument 2 of the emit made
from inside `reEmitter`, then with the argument 1 of the outer emit; both
closures are out of the handler list afterwards. -/
theorem C20_once_fires_twice_on_reentrant_emit :
    («$emit» 20 onceTwice "e" [1]).map (fun vm => vm.invoked) =
      some [(1, [1]), (2, [2]), (2, [1])] ∧
    («$emit» 20 onceTwice "e" [1]).map (fun vm => eventsGet vm._events "e") =
      some (some []) ∧
    eventsGet onceTwice._events "e" =
      some [Fn.onceWrapper 0 "e" reEmitter, Fn.onceWrapper 1 "e" plainHandler] := by
  decide

end Vue
